import Mathlib

/-! Package yint: loading and merging of template inputs.

A shallow embedding of `apply.go` (package `yint`) and of `convertVarsKV` from
`cli/yint/main.go`.

* Go `string` and `[]byte` are byte lists (`Bytes`); the conversions
  `string(b)` and `[]byte(s)` are the identity.
* Go `error` values are represented by their message (`err.Error()`).
* Go `map[string]interface{}` is an association list with unique keys
  (`GoMap`); a `nil` map reads like the empty map.
* The file system, the process environment and the libraries `yaml.v2` and
  `go-patch` are gathered in a `World` record that every loading function
  receives.
* A Go return pair `([]byte, error)` whose first component is ignored by
  every caller on failure is an `Except`; `Apply` itself returns the pair.
-/

namespace Yint

/-- Go byte strings. -/
abbrev Bytes := List UInt8

/-- ASCII text of a Go string literal as bytes. -/
def bytesOf (s : String) : Bytes := s.data.map (fun c => c.toNat.toUInt8)

/-- Go `error`, represented by its message. -/
abbrev GoError := Bytes

/-- Go `interface{}` values held by the variable maps: what `yaml.v2` decodes
into an `interface{}`, Go strings included. A float is given by its bits. -/
inductive Value where
  | null
  | bool (b : Bool)
  | int (i : Int)
  | float (bits : Nat)
  | str (s : Bytes)
  | seq (xs : List Value)
  | map (kvs : List (Value × Value))

/-- Go `map[string]interface{}`. -/
abbrev GoMap := AList (fun _ : Bytes => Value)

/-- The `strings.HasPrefix` function. -/
def HasPrefix (s p : Bytes) : Bool := p.isPrefixOf s

/-- The `strings.TrimPrefix` function. -/
def TrimPrefix (s p : Bytes) : Bytes := if HasPrefix s p then s.drop p.length else s

/-- Cut `s` at the first occurrence of the byte `c`: the bytes before it and
the bytes after it, `none` when `c` does not occur. -/
def cutFirst (c : UInt8) : Bytes → Option (Bytes × Bytes)
  | [] => none
  | x :: xs =>
    if x = c then some ([], xs)
    else match cutFirst c xs with
      | none => none
      | some (a, b) => some (x :: a, b)

/-- The call `strings.SplitN(s, "=", 2)`. -/
def SplitN (s : Bytes) : List Bytes :=
  match cutFirst 61 s with
  | none => [s]
  | some (a, b) => [a, b]

/-- The external collaborators of the package: process environment, current
user, path functions, file system, YAML decoding and the go-patch
constructors. `Def`, `Ops` and `Ptr` stand for `patch.OpDefinition`,
`patch.Ops` and `patch.Pointer`. -/
structure World (Def Ops Ptr : Type) where
  /-- The list `os.Environ()`. -/
  environ : List Bytes
  /-- Home directory of `user.Current()`. -/
  currentUser : Except GoError Bytes
  /-- The function `filepath.Join` on two elements. -/
  join : Bytes → Bytes → Bytes
  /-- The function `filepath.Abs`. -/
  abs : Bytes → Except GoError Bytes
  /-- Outcome of `os.Open`; for an opened file, the outcome of `ioutil.ReadAll`. -/
  osOpen : Bytes → Except GoError (Except GoError Bytes)
  /-- Call `yaml.Unmarshal` into an `interface{}`. -/
  yamlUnmarshal : Bytes → Except GoError Value
  /-- Call `yaml.Unmarshal` into a `map[string]interface{}`. -/
  yamlUnmarshalMap : Bytes → Except GoError GoMap
  /-- The `i`-th call of `Decode` on `yaml.NewDecoder(data)`: `none` is
  `io.EOF`, otherwise the definitions the call stored (with or without an
  error, which `loadOps` does not look at). -/
  decode : Bytes → Nat → Option (List Def)
  /-- The function `patch.NewOpsFromDefinitions`. -/
  NewOpsFromDefinitions : List Def → Except GoError Ops
  /-- The function `patch.NewPointerFromString`. -/
  NewPointerFromString : Bytes → Except GoError Ptr

/-- Options of `Apply`; `VarsKV` is `none` for a `nil` map. -/
structure ApplyOpts where
  YamlContent : Bytes := []
  YamlPath : Bytes := []
  OpsContent : Bytes := []
  OpsFiles : List Bytes := []
  VarsKV : Option GoMap := none
  VarFiles : List Bytes := []
  VarsFiles : List Bytes := []
  VarsEnv : List Bytes := []
  OpPath : Bytes := []
  VarErrors : Bool := false
  VarErrorsUnused : Bool := false

/-- The value `patch.FindOp{Path: ptr}`. -/
structure FindOp (Ptr : Type) where
  Path : Ptr

/-- The fields of `EvaluateOpts` that `Apply` sets; a `nil` operation is `none`. -/
structure EvaluateOpts (Ptr : Type) where
  ExpectAllKeys : Bool := false
  ExpectAllVarsUsed : Bool := false
  PostVarSubstitutionOp : Option (FindOp Ptr) := none
  UnescapedMultiline : Bool := false

/-- A template, as built by `NewTemplate`. -/
structure Template where
  bytes : Bytes

/-- The constructor `NewTemplate`. -/
def NewTemplate (bytes : Bytes) : Template := ⟨bytes⟩

/-- The conversion `StaticVariables(vars)`. -/
abbrev StaticVariables := GoMap

/-- The evaluation engine behind `Template.Evaluate`: template, variable
store, operations and options to a rendered document or an error. -/
abbrev Engine (Ops Ptr : Type) :=
  Template → StaticVariables → Ops → EvaluateOpts Ptr → Except GoError Bytes

/-- Modelled from the spec: `Template.Evaluate`, which is defined in another
file of the package. The spec describes its outcome as either a complete
rendered document or a single error value, with no partial output on error;
the engine that computes this outcome is a parameter. -/
def Evaluate {Ops Ptr : Type} (engine : Engine Ops Ptr) (tpl : Template)
    (vars : StaticVariables) (ops : Ops) (opts : EvaluateOpts Ptr) : Bytes × Option GoError :=
  match engine tpl vars ops opts with
  | .ok b => (b, none)
  | .error err => ([], some err)

/-- The function `mergeMap`: every entry of every map of `as`, in order, is
stored into `s`. -/
def mergeMap (s : GoMap) (as : List GoMap) : GoMap :=
  as.foldl (fun s a => a.entries.foldl (fun s e => s.insert e.1 e.2) s) s

/-- The function `expandPath`. -/
def expandPath {Def Ops Ptr : Type} (w : World Def Ops Ptr) (path : Bytes) :
    Except GoError Bytes :=
  let homed : Except GoError Bytes :=
    if HasPrefix path (bytesOf "~") then
      match w.currentUser with
      | .error err => .error (bytesOf "Getting current user home dir: " ++ err)
      | .ok homeDir => .ok (w.join homeDir (path.drop 1))
    else .ok path
  match homed with
  | .error err => .error err
  | .ok path =>
    match w.abs path with
    | .error err => .error (bytesOf "Getting absolute path: " ++ err)
    | .ok path => .ok path

/-- The function `loadFile`. When `expandPath` fails, `path` has been
overwritten with the empty string it returned, which is what the message
shows. -/
def loadFile {Def Ops Ptr : Type} (w : World Def Ops Ptr) (path : Bytes) :
    Except GoError Bytes :=
  if path == [] then .ok []
  else
    match expandPath w path with
    | .error err =>
      .error (bytesOf "Expanding path for file '" ++ [] ++ bytesOf "': " ++ err)
    | .ok path =>
      match w.osOpen path with
      | .error err => .error (bytesOf "Loading file '" ++ path ++ bytesOf "': " ++ err)
      | .ok f => f

/-- The function `appendYmlByte`. -/
def appendYmlByte (s : Bytes) (as : List Bytes) : Bytes :=
  let result : Bytes := if s.length != 0 then s else []
  as.foldl (fun result a => (if result.length > 0 then result ++ [10] else result) ++ a) result

/-- The loop of `loadFiles`, from the accumulated `result`. -/
def loadFilesLoop {Def Ops Ptr : Type} (w : World Def Ops Ptr) :
    Bytes → List Bytes → Except GoError Bytes
  | result, [] => .ok result
  | result, path :: rest =>
    match loadFile w path with
    | .error err => .error err
    | .ok b => loadFilesLoop w (appendYmlByte result [b]) rest

/-- The function `loadFiles`. -/
def loadFiles {Def Ops Ptr : Type} (w : World Def Ops Ptr) (paths : List Bytes) :
    Except GoError Bytes :=
  loadFilesLoop w [] paths

/-- The function `loadAllType`. -/
def loadAllType {Def Ops Ptr : Type} (w : World Def Ops Ptr) (b : Bytes) (files : List Bytes) :
    Except GoError Bytes :=
  match loadFiles w files with
  | .error err => .error err
  | .ok content => .ok (appendYmlByte b [content])

/-- The loop of `loadOps`: `i` calls of `Decode` were made and `opDefs` is
accumulated; `none` when the fuel runs out before `io.EOF`. -/
def loadOpsLoop {Def Ops Ptr : Type} (w : World Def Ops Ptr) (data : Bytes) :
    Nat → Nat → List Def → Option (List Def)
  | 0, _, _ => none
  | fuel + 1, i, opDefs =>
    match w.decode data i with
    | none => some opDefs
    | some opsDefsTmp => loadOpsLoop w data fuel (i + 1) (opDefs ++ opsDefsTmp)

/-- The function `loadOps`; `none` when the decoding loop does not end in
`fuel` iterations. -/
def loadOps {Def Ops Ptr : Type} (w : World Def Ops Ptr) (fuel : Nat) (data : Bytes) :
    Option (Except GoError Ops) :=
  match loadOpsLoop w data fuel 0 [] with
  | none => none
  | some opDefs => some (w.NewOpsFromDefinitions opDefs)

/-- The function `loadVarFile`. -/
def loadVarFile {Def Ops Ptr : Type} (w : World Def Ops Ptr) (varFile : Bytes) :
    Except GoError GoMap :=
  if varFile == [] then .ok ∅
  else
    match SplitN varFile with
    | [name, path] =>
      if name.length == 0 then
        .error (bytesOf "Expected var '" ++ varFile ++ bytesOf "' to specify non-empty name")
      else if path.length == 0 then
        .error (bytesOf "Expected var '" ++ varFile ++ bytesOf "' to specify non-empty path")
      else
        match loadFile w path with
        | .error err =>
          .error (bytesOf "Reading variable from file '" ++ path ++ bytesOf "': " ++ err)
        | .ok b => .ok (AList.singleton name (Value.str b))
    | _ => .error (bytesOf "Expected var '" ++ varFile ++ bytesOf "' to be in format 'name=path'")

/-- The loop of `loadVarFiles`, from the accumulated `result`. -/
def loadVarFilesLoop {Def Ops Ptr : Type} (w : World Def Ops Ptr) :
    GoMap → List Bytes → Except GoError GoMap
  | result, [] => .ok result
  | result, varFile :: rest =>
    match loadVarFile w varFile with
    | .error err => .error err
    | .ok r => loadVarFilesLoop w (mergeMap result [r]) rest

/-- The function `loadVarFiles`. -/
def loadVarFiles {Def Ops Ptr : Type} (w : World Def Ops Ptr) (varFiles : List Bytes) :
    Except GoError GoMap :=
  loadVarFilesLoop w ∅ varFiles

/-- The function `loadVarsFiles`. -/
def loadVarsFiles {Def Ops Ptr : Type} (w : World Def Ops Ptr) (files : List Bytes) :
    Except GoError GoMap :=
  match loadFiles w files with
  | .error err => .error err
  | .ok b => w.yamlUnmarshalMap b

/-- The loop of `loadVarsEnv` over the entries of `os.Environ()`. -/
def loadVarsEnvLoop {Def Ops Ptr : Type} (w : World Def Ops Ptr) (pfx : Bytes) :
    GoMap → List Bytes → Except GoError GoMap
  | vars, [] => .ok vars
  | vars, envVar :: rest =>
    match SplitN envVar with
    | [name, text] =>
      if !HasPrefix name (pfx ++ bytesOf "_") then loadVarsEnvLoop w pfx vars rest
      else
        match w.yamlUnmarshal text with
        | .error err =>
          .error (bytesOf "Deserializing YAML from environment variable '" ++ name
            ++ bytesOf "': " ++ err)
        | .ok val =>
          loadVarsEnvLoop w pfx (vars.insert (TrimPrefix name (pfx ++ bytesOf "_")) val) rest
    | _ => .error (bytesOf "Expected environment variable to be key-value pair")

/-- The function `loadVarsEnv`. -/
def loadVarsEnv {Def Ops Ptr : Type} (w : World Def Ops Ptr) (pfx : Bytes) :
    Except GoError GoMap :=
  loadVarsEnvLoop w pfx ∅ w.environ

/-- The loop of `loadVarsEnvs`, from the accumulated `result`. -/
def loadVarsEnvsLoop {Def Ops Ptr : Type} (w : World Def Ops Ptr) :
    GoMap → List Bytes → Except GoError GoMap
  | result, [] => .ok result
  | result, pfx :: rest =>
    match loadVarsEnv w pfx with
    | .error err => .error err
    | .ok v => loadVarsEnvsLoop w (mergeMap result [v]) rest

/-- The function `loadVarsEnvs`. -/
def loadVarsEnvs {Def Ops Ptr : Type} (w : World Def Ops Ptr) (pfxs : List Bytes) :
    Except GoError GoMap :=
  loadVarsEnvsLoop w ∅ pfxs

/-- The end of `Apply`: the call of `Evaluate` and the wrapping of its error. -/
def applyEvaluate {Ops Ptr : Type} (engine : Engine Ops Ptr) (tpl : Template)
    (vars : StaticVariables) (ops : Ops) (evalOpts : EvaluateOpts Ptr) : Bytes × Option GoError :=
  match Evaluate engine tpl vars ops evalOpts with
  | (result, some err) => (result, some (bytesOf "Evaluating: " ++ err))
  | (result, none) => (result, none)

/-- The function `Apply`. The result is `none` when the decoding loop of
`loadOps` does not end in `fuel` iterations. -/
def Apply {Def Ops Ptr : Type} (w : World Def Ops Ptr) (engine : Engine Ops Ptr) (fuel : Nat)
    (opts : ApplyOpts) : Option (Bytes × Option GoError) :=
  let result : Bytes := []
  if opts.YamlContent.length == 0 && opts.YamlPath == [] then
    some (result, some (bytesOf "A yaml template must be given."))
  else if opts.OpsContent.length == 0 && opts.OpsFiles.length == 0 then
    some (result, some (bytesOf "An ops-file must be given."))
  else
    let varsKV : GoMap := match opts.VarsKV with
      | none => ∅
      | some m => m
    match loadAllType w opts.YamlContent [opts.YamlPath] with
    | .error err => some (result, some err)
    | .ok yamlContent =>
    match loadAllType w opts.OpsContent opts.OpsFiles with
    | .error err => some (result, some err)
    | .ok opsContent =>
    match loadOps w fuel opsContent with
    | none => none
    | some (.error err) => some (result, some err)
    | some (.ok ops) =>
    let vars := varsKV
    match loadVarsEnvs w opts.VarsEnv with
    | .error err => some (result, some err)
    | .ok varsEnv =>
    match loadVarsFiles w opts.VarFiles with
    | .error err => some (result, some err)
    | .ok varsFiles =>
    match loadVarFiles w opts.VarFiles with
    | .error err => some (result, some err)
    | .ok varsFile =>
    let vars := mergeMap vars [varsEnv, varsFiles, varsFile]
    let tpl := NewTemplate yamlContent
    let evalOpts : EvaluateOpts Ptr :=
      { ExpectAllKeys := opts.VarErrors, ExpectAllVarsUsed := opts.VarErrorsUnused }
    if opts.OpPath != [] then
      match w.NewPointerFromString opts.OpPath with
      | .error err => some (result, some err)
      | .ok ptr =>
        let evalOpts : EvaluateOpts Ptr :=
          { evalOpts with PostVarSubstitutionOp := some ⟨ptr⟩, UnescapedMultiline := true }
        some (applyEvaluate engine tpl vars ops evalOpts)
    else some (applyEvaluate engine tpl vars ops evalOpts)

/-- The loop of `convertVarsKV` (cli/yint/main.go), from the accumulated
`varsKv`. -/
def convertVarsKVLoop : GoMap → List Bytes → Except GoError GoMap
  | varsKv, [] => .ok varsKv
  | varsKv, kvRaw :: rest =>
    match SplitN kvRaw with
    | [name, value] =>
      if name.length == 0 then
        .error (bytesOf "Expected var '" ++ kvRaw ++ bytesOf "' to specify non-empty name")
      else if value.length == 0 then
        .error (bytesOf "Expected var '" ++ kvRaw ++ bytesOf "' to specify non-empty path")
      else convertVarsKVLoop (varsKv.insert name (Value.str value)) rest
    | _ => .error (bytesOf "Expected var '" ++ kvRaw ++ bytesOf "' to be in format 'name=path'")

/-- The function `convertVarsKV` (cli/yint/main.go). -/
def convertVarsKV (kvRawSlice : List Bytes) : Except GoError GoMap :=
  convertVarsKVLoop ∅ kvRawSlice

/-! ## A concrete world for the examples -/

/-- YAML decoding into an `interface{}` of the plain scalars used in the
examples: `value` and `envval` are strings, `1` is an integer. Other documents
are outside the examples and refused. -/
def demoUnmarshal (b : Bytes) : Except GoError Value :=
  if b = bytesOf "value" then .ok (Value.str (bytesOf "value"))
  else if b = bytesOf "envval" then .ok (Value.str (bytesOf "envval"))
  else if b = bytesOf "1" then .ok (Value.int 1)
  else .error (bytesOf "yaml: document outside the examples")

/-- YAML decoding into a `map[string]interface{}` of the documents used in the
examples: the empty document gives the `nil` map, `x: 1` and `other: 2` give
one-entry maps. -/
def demoUnmarshalMap (b : Bytes) : Except GoError GoMap :=
  if b = [] then .ok ∅
  else if b = bytesOf "x: 1" then .ok (AList.singleton (bytesOf "x") (Value.int 1))
  else if b = bytesOf "other: 2" then .ok (AList.singleton (bytesOf "other") (Value.int 2))
  else .error (bytesOf "yaml: document outside the examples")

/-- The files of the examples, by absolute path. -/
def demoFiles (path : Bytes) : Except GoError (Except GoError Bytes) :=
  if path = bytesOf "/cwd/vars.yml" then .ok (.ok (bytesOf "x: 1"))
  else if path = bytesOf "/cwd/secret" then .ok (.ok (bytesOf "fileval"))
  else if path = bytesOf "/cwd/k=secret" then .ok (.ok (bytesOf "other: 2"))
  else if path = bytesOf "/cwd/a.yml" then .ok (.ok (bytesOf "a: 1"))
  else if path = bytesOf "/cwd/b.yml" then .ok (.ok (bytesOf "b: 2"))
  else .error (bytesOf "open: no such file or directory")

/-- A world with working directory `/cwd`, the files of `demoFiles`, and an
environment of three entries. The ops content of the examples is the
document `[]`: the first `Decode` gives no definition and the second one is at
the end of the input. Pointers start with `/`. -/
def demoWorld : World Unit (List Unit) Bytes where
  environ := [bytesOf "HOME=/root", bytesOf "MY_var=value", bytesOf "MY_k=envval"]
  currentUser := .ok (bytesOf "/root")
  join := fun dir rest => dir ++ rest
  abs := fun path =>
    .ok (if HasPrefix path (bytesOf "/") then path else bytesOf "/cwd/" ++ path)
  osOpen := demoFiles
  yamlUnmarshal := demoUnmarshal
  yamlUnmarshalMap := demoUnmarshalMap
  decode := fun data i => if data = [] then none else if i = 0 then some [] else none
  NewOpsFromDefinitions := fun opDefs => .ok opDefs
  NewPointerFromString := fun s =>
    if HasPrefix s (bytesOf "/") then .ok s else .error (bytesOf "Expected to start with '/'")

/-- The world `demoWorld` with another environment: a name that starts with
`MY` but not with `MY_`. -/
def bareWorld : World Unit (List Unit) Bytes :=
  { demoWorld with environ := [bytesOf "HOME=/root", bytesOf "MYvar=1"] }

/-- An engine that fails. -/
def failingEngine : Engine (List Unit) Bytes := fun _ _ _ _ => .error (bytesOf "boom")

/-- Inline template and operations, the environment prefix `MY` and the file
binding `k=secret`. -/
def precedenceOpts : ApplyOpts :=
  { YamlContent := bytesOf "a: ((k))", OpsContent := bytesOf "[]",
    VarsEnv := [bytesOf "MY"], VarFiles := [bytesOf "k=secret"] }

/-- Inline template and operations, and the YAML variables file `vars.yml`. -/
def varsFilesOpts : ApplyOpts :=
  { YamlContent := bytesOf "a: ((x))", OpsContent := bytesOf "[]",
    VarsFiles := [bytesOf "vars.yml"] }

/-- Inline template and operations, the extraction path `/a` and both
strictness flags. -/
def pathOpts : ApplyOpts :=
  { YamlContent := bytesOf "a: 1", OpsContent := bytesOf "[]", OpPath := bytesOf "/a",
    VarErrors := true, VarErrorsUnused := true }

/-! ## Auxiliary definitions for the statements and proofs -/

/-- One iteration of a loop that reads an entry and either fails, goes on, or
stores one key. -/
abbrev Step := Bytes → Except GoError (Option (Bytes × Value))

/-- A loop over entries whose iterations are given by `step`. -/
def insertLoop (step : Step) : GoMap → List Bytes → Except GoError GoMap
  | acc, [] => .ok acc
  | acc, e :: rest =>
    match step e with
    | .error err => .error err
    | .ok none => insertLoop step acc rest
    | .ok (some (k, v)) => insertLoop step (acc.insert k v) rest

/-- The iteration of `convertVarsKV`. -/
def kvStep : Step := fun kvRaw =>
  match SplitN kvRaw with
  | [name, value] =>
    if name.length == 0 then
      .error (bytesOf "Expected var '" ++ kvRaw ++ bytesOf "' to specify non-empty name")
    else if value.length == 0 then
      .error (bytesOf "Expected var '" ++ kvRaw ++ bytesOf "' to specify non-empty path")
    else .ok (some (name, Value.str value))
  | _ => .error (bytesOf "Expected var '" ++ kvRaw ++ bytesOf "' to be in format 'name=path'")

/-- The iteration of `loadVarsEnv`. -/
def envStep {Def Ops Ptr : Type} (w : World Def Ops Ptr) (pfx : Bytes) : Step := fun envVar =>
  match SplitN envVar with
  | [name, text] =>
    if !HasPrefix name (pfx ++ bytesOf "_") then .ok none
    else
      match w.yamlUnmarshal text with
      | .error err =>
        .error (bytesOf "Deserializing YAML from environment variable '" ++ name
          ++ bytesOf "': " ++ err)
      | .ok val => .ok (some (TrimPrefix name (pfx ++ bytesOf "_"), val))
  | _ => .error (bytesOf "Expected environment variable to be key-value pair")

/-- A loop that merges the maps obtained from the items into the accumulated
map and stops at the first failure. -/
def mergeLoop (f : Bytes → Except GoError GoMap) : GoMap → List Bytes → Except GoError GoMap
  | acc, [] => .ok acc
  | acc, x :: rest =>
    match f x with
    | .error err => .error err
    | .ok r => mergeLoop f (mergeMap acc [r]) rest

/-- The entry `e` reads `name=text`, cut at its first `=`. -/
def IsBinding (e name text : Bytes) : Prop := e = name ++ 61 :: text ∧ (61 : UInt8) ∉ name

/-- The pieces in order, with exactly one newline byte between two
consecutive pieces and none before the first or after the last. -/
def joinNewline : List Bytes → Bytes
  | [] => []
  | [a] => a
  | a :: b :: rest => a ++ 10 :: joinNewline (b :: rest)

/-- The map `Apply` starts from: `VarsKV`, or a new map when it is `nil`. -/
def varsKVOf (opts : ApplyOpts) : GoMap :=
  match opts.VarsKV with
  | none => ∅
  | some m => m

/-- `Apply` reaches its call of `Evaluate` with these arguments: whatever the
engine is, the result of `Apply` is the outcome of that call. -/
def HandsToEvaluator {Def Ops Ptr : Type} (w : World Def Ops Ptr) (fuel : Nat) (opts : ApplyOpts)
    (tpl : Template) (vars : StaticVariables) (ops : Ops) (evalOpts : EvaluateOpts Ptr) : Prop :=
  ∀ engine : Engine Ops Ptr,
    Apply w engine fuel opts = some (applyEvaluate engine tpl vars ops evalOpts)

/-- The inputs are given and every loading step that `Apply` runs before it
parses `OpPath` succeeds. -/
def LoadsSucceed {Def Ops Ptr : Type} (w : World Def Ops Ptr) (fuel : Nat) (opts : ApplyOpts) :
    Prop :=
  ¬ (opts.YamlContent = [] ∧ opts.YamlPath = []) ∧
  ¬ (opts.OpsContent = [] ∧ opts.OpsFiles = []) ∧
  (∃ yamlContent, loadAllType w opts.YamlContent [opts.YamlPath] = .ok yamlContent) ∧
  (∃ opsContent ops, loadAllType w opts.OpsContent opts.OpsFiles = .ok opsContent ∧
    loadOps w fuel opsContent = some (.ok ops)) ∧
  (∃ varsEnv, loadVarsEnvs w opts.VarsEnv = .ok varsEnv) ∧
  (∃ varsFiles, loadVarsFiles w opts.VarFiles = .ok varsFiles) ∧
  (∃ varsFile, loadVarFiles w opts.VarFiles = .ok varsFile)

/-! ## Shared lemmas -/

theorem cutFirst_eq_some (c : UInt8) (s a b : Bytes) :
    cutFirst c s = some (a, b) ↔ s = a ++ c :: b ∧ c ∉ a := by
  induction s generalizing a b with
  | nil => simp [cutFirst]
  | cons x xs ih =>
    unfold cutFirst
    by_cases hx : x = c
    · subst hx
      simp only [if_pos, Option.some.injEq, Prod.mk.injEq]
      constructor
      · rintro ⟨rfl, rfl⟩
        simp
      · rintro ⟨h, hn⟩
        cases a with
        | nil =>
          simp only [List.nil_append, List.cons.injEq, true_and] at h
          exact ⟨rfl, h⟩
        | cons y ys =>
          simp only [List.cons_append, List.cons.injEq] at h
          exact absurd (by simp [h.1]) hn
    · simp only [if_neg hx]
      cases a with
      | nil =>
        cases hc : cutFirst c xs with
        | none => simp [hx]
        | some p => simp [hx]
      | cons y ys =>
        have hmem : c ∉ y :: ys ↔ (y ≠ c ∧ c ∉ ys) := by
          simp only [List.mem_cons, not_or, ne_eq]
          exact ⟨fun h => ⟨fun e => h.1 e.symm, h.2⟩, fun h => ⟨fun e => h.1 e.symm, h.2⟩⟩
        cases hc : cutFirst c xs with
        | none =>
          have := ih ys b
          rw [hc] at this
          simp only [reduceCtorEq, false_iff, not_and, not_not] at this
          simp only [reduceCtorEq, List.cons_append, List.cons.injEq, false_iff, not_and, not_not]
          rintro ⟨_, h2⟩
          exact List.mem_cons_of_mem _ (this h2)
        | some p =>
          obtain ⟨a1, b1⟩ := p
          have := ih ys b
          rw [hc] at this
          simp only [Option.some.injEq, Prod.mk.injEq] at this
          simp only [Option.some.injEq, Prod.mk.injEq, List.cons.injEq, List.cons_append, hmem]
          constructor
          · rintro ⟨⟨rfl, rfl⟩, rfl⟩
            have h := this.mp ⟨rfl, rfl⟩
            exact ⟨⟨rfl, h.1⟩, hx, h.2⟩
          · rintro ⟨⟨rfl, h2⟩, _, h3⟩
            have h := this.mpr ⟨h2, h3⟩
            exact ⟨⟨rfl, h.1⟩, h.2⟩

theorem cutFirst_eq_none (c : UInt8) (s : Bytes) : cutFirst c s = none ↔ c ∉ s := by
  induction s with
  | nil => simp [cutFirst]
  | cons x xs ih =>
    unfold cutFirst
    by_cases hx : x = c
    · subst hx
      simp
    · simp only [if_neg hx, List.mem_cons, not_or]
      cases hc : cutFirst c xs with
      | none => simpa [Ne.symm hx] using ih.mp hc
      | some p =>
        simp only [false_iff, not_and, not_not, reduceCtorEq]
        intro _
        by_contra hn
        rw [ih.mpr hn] at hc
        cases hc

theorem SplitN_append (a b : Bytes) (h : (61 : UInt8) ∉ a) : SplitN (a ++ 61 :: b) = [a, b] := by
  unfold SplitN
  rw [(cutFirst_eq_some 61 _ a b).mpr ⟨rfl, h⟩]

theorem SplitN_of_not_mem (s : Bytes) (h : (61 : UInt8) ∉ s) : SplitN s = [s] := by
  unfold SplitN
  rw [(cutFirst_eq_none 61 s).mpr h]

theorem SplitN_cases (s : Bytes) :
    (SplitN s = [s] ∧ (61 : UInt8) ∉ s) ∨
      ∃ a b, SplitN s = [a, b] ∧ s = a ++ 61 :: b ∧ (61 : UInt8) ∉ a := by
  unfold SplitN
  cases hc : cutFirst 61 s with
  | none => exact Or.inl ⟨rfl, (cutFirst_eq_none 61 s).mp hc⟩
  | some p =>
    obtain ⟨a1, b1⟩ := p
    exact Or.inr ⟨a1, b1, rfl, (cutFirst_eq_some 61 s a1 b1).mp hc⟩

theorem lookup_foldl_insert (l : List (Sigma fun _ : Bytes => Value)) (hl : l.NodupKeys)
    (s : GoMap) (k : Bytes) :
    (l.foldl (fun s e => s.insert e.1 e.2) s).lookup k = (List.dlookup k l).or (s.lookup k) := by
  induction l generalizing s with
  | nil => simp
  | cons e l ih =>
    obtain ⟨ek, ev⟩ := e
    rw [List.nodupKeys_cons] at hl
    rw [List.foldl_cons, ih hl.2]
    by_cases hk : k = ek
    · subst hk
      have : List.dlookup k l = none := List.dlookup_eq_none.mpr hl.1
      simp [this]
    · rw [AList.lookup_insert_ne hk, List.dlookup_cons_ne _ _ hk]

theorem mergeMap_nil (s : GoMap) : mergeMap s [] = s := rfl

theorem mergeMap_cons (s a : GoMap) (as : List GoMap) :
    mergeMap s (a :: as) = mergeMap (mergeMap s [a]) as := rfl

theorem lookup_mergeMap_single (s a : GoMap) (k : Bytes) :
    (mergeMap s [a]).lookup k = (a.lookup k).or (s.lookup k) := by
  simp only [mergeMap, List.foldl_cons, List.foldl_nil]
  rw [lookup_foldl_insert _ a.nodupKeys]
  rfl

theorem lookup_mergeMap (s : GoMap) (as : List GoMap) (k : Bytes) :
    (mergeMap s as).lookup k = (s :: as).reverse.findSome? (fun m => m.lookup k) := by
  induction as generalizing s with
  | nil =>
    rw [mergeMap_nil]
    cases h : AList.lookup k s <;> simp [List.findSome?, h]
  | cons a as ih =>
    have single : ∀ m : GoMap, List.findSome? (fun m => AList.lookup k m) [m] = m.lookup k := by
      intro m
      cases h : AList.lookup k m <;> simp [List.findSome?, h]
    rw [mergeMap_cons, ih, List.reverse_cons, List.reverse_cons, List.reverse_cons,
      List.findSome?_append, List.findSome?_append, List.findSome?_append,
      single, single, single, lookup_mergeMap_single]
    cases List.findSome? (fun m => AList.lookup k m) as.reverse <;>
      cases AList.lookup k a <;> cases AList.lookup k s <;> simp

theorem mem_mergeMap (s : GoMap) (as : List GoMap) (k : Bytes) :
    k ∈ mergeMap s as ↔ ∃ m ∈ s :: as, k ∈ m := by
  rw [← AList.lookup_isSome, lookup_mergeMap, List.findSome?_isSome_iff]
  simp only [List.mem_reverse, AList.lookup_isSome]

theorem convertVarsKVLoop_eq (acc : GoMap) (l : List Bytes) :
    convertVarsKVLoop acc l = insertLoop kvStep acc l := by
  induction l generalizing acc with
  | nil => rfl
  | cons e rest ih =>
    unfold convertVarsKVLoop insertLoop kvStep
    split
    · split
      · rfl
      · split
        · rfl
        · exact ih _
    · rfl

theorem loadVarsEnvLoop_eq {Def Ops Ptr : Type} (w : World Def Ops Ptr) (pfx : Bytes)
    (acc : GoMap) (l : List Bytes) :
    loadVarsEnvLoop w pfx acc l = insertLoop (envStep w pfx) acc l := by
  induction l generalizing acc with
  | nil => rfl
  | cons e rest ih =>
    unfold loadVarsEnvLoop insertLoop envStep
    split
    · split
      · exact ih _
      · split
        · rfl
        · exact ih _
    · rfl

theorem loadVarFilesLoop_eq {Def Ops Ptr : Type} (w : World Def Ops Ptr)
    (acc : GoMap) (l : List Bytes) :
    loadVarFilesLoop w acc l = mergeLoop (loadVarFile w) acc l := by
  induction l generalizing acc with
  | nil => rfl
  | cons e rest ih =>
    unfold loadVarFilesLoop mergeLoop
    split
    · rfl
    · exact ih _

theorem loadVarsEnvsLoop_eq {Def Ops Ptr : Type} (w : World Def Ops Ptr)
    (acc : GoMap) (l : List Bytes) :
    loadVarsEnvsLoop w acc l = mergeLoop (loadVarsEnv w) acc l := by
  induction l generalizing acc with
  | nil => rfl
  | cons e rest ih =>
    unfold loadVarsEnvsLoop mergeLoop
    split
    · rfl
    · exact ih _

theorem insertLoop_lookup (step : Step) (acc : GoMap) (l : List Bytes) (m : GoMap)
    (h : insertLoop step acc l = .ok m) (k : Bytes) (v : Value) :
    m.lookup k = some v ↔
      (∃ pre e post, l = pre ++ e :: post ∧ step e = .ok (some (k, v)) ∧
        ∀ e' ∈ post, ∀ v', step e' ≠ .ok (some (k, v'))) ∨
      (acc.lookup k = some v ∧ ∀ e' ∈ l, ∀ v', step e' ≠ .ok (some (k, v'))) := by
  induction l generalizing acc with
  | nil =>
    simp only [insertLoop, Except.ok.injEq] at h
    subst h
    simp
  | cons e rest ih =>
    unfold insertLoop at h
    cases hs : step e with
    | error err => rw [hs] at h; cases h
    | ok r =>
      rw [hs] at h
      cases r with
      | none =>
        simp only at h
        rw [ih acc h]
        constructor
        · rintro (⟨pre, e1, post, rfl, h1, h2⟩ | ⟨h1, h2⟩)
          · exact Or.inl ⟨e :: pre, e1, post, rfl, h1, h2⟩
          · refine Or.inr ⟨h1, ?_⟩
            intro e' he' v'
            rcases List.mem_cons.mp he' with rfl | he'
            · rw [hs]; simp
            · exact h2 e' he' v'
        · rintro (⟨pre, e1, post, hl, h1, h2⟩ | ⟨h1, h2⟩)
          · cases pre with
            | nil =>
              simp only [List.nil_append, List.cons.injEq] at hl
              rw [← hl.1, hs] at h1
              simp at h1
            | cons p pre =>
              simp only [List.cons_append, List.cons.injEq] at hl
              exact Or.inl ⟨pre, e1, post, hl.2, h1, h2⟩
          · exact Or.inr ⟨h1, fun e' he' => h2 e' (List.mem_cons_of_mem _ he')⟩
      | some kv =>
        obtain ⟨k0, v0⟩ := kv
        simp only at h
        rw [ih _ h]
        constructor
        · rintro (⟨pre, e1, post, rfl, h1, h2⟩ | ⟨h1, h2⟩)
          · exact Or.inl ⟨e :: pre, e1, post, rfl, h1, h2⟩
          · by_cases hk : k = k0
            · subst hk
              rw [AList.lookup_insert] at h1
              simp only [Option.some.injEq] at h1
              subst h1
              exact Or.inl ⟨[], e, rest, rfl, hs, h2⟩
            · rw [AList.lookup_insert_ne hk] at h1
              refine Or.inr ⟨h1, ?_⟩
              intro e' he' v'
              rcases List.mem_cons.mp he' with rfl | he'
              · rw [hs]
                simp only [ne_eq, Except.ok.injEq, Option.some.injEq, Prod.mk.injEq, not_and]
                exact fun h0 => absurd h0.symm hk
              · exact h2 e' he' v'
        · rintro (⟨pre, e1, post, hl, h1, h2⟩ | ⟨h1, h2⟩)
          · cases pre with
            | nil =>
              simp only [List.nil_append, List.cons.injEq] at hl
              rw [← hl.1, hs] at h1
              simp only [Except.ok.injEq, Option.some.injEq, Prod.mk.injEq] at h1
              obtain ⟨rfl, rfl⟩ := h1
              rw [hl.2]
              exact Or.inr ⟨AList.lookup_insert _, h2⟩
            | cons p pre =>
              simp only [List.cons_append, List.cons.injEq] at hl
              exact Or.inl ⟨pre, e1, post, hl.2, h1, h2⟩
          · have hk : k ≠ k0 := by
              rintro rfl
              exact h2 e (List.mem_cons_self _ _) v0 hs
            refine Or.inr ⟨?_, fun e' he' => h2 e' (List.mem_cons_of_mem _ he')⟩
            rw [AList.lookup_insert_ne hk]
            exact h1

theorem insertLoop_error_iff (step : Step) (acc : GoMap) (l : List Bytes) :
    (∃ err, insertLoop step acc l = .error err) ↔ ∃ e ∈ l, ∃ err, step e = .error err := by
  induction l generalizing acc with
  | nil => simp [insertLoop]
  | cons e rest ih =>
    unfold insertLoop
    cases hs : step e with
    | error err => simp [hs]
    | ok r =>
      cases r with
      | none => simp only [ih acc, List.mem_cons, exists_eq_or_imp, hs, reduceCtorEq,
          exists_false, false_or]
      | some kv => simp only [ih _, List.mem_cons, exists_eq_or_imp, hs, reduceCtorEq,
          exists_false, false_or]

theorem insertLoop_total (step : Step) (acc : GoMap) (l : List Bytes) :
    (∃ m, insertLoop step acc l = .ok m) ∨ (∃ err, insertLoop step acc l = .error err) := by
  cases h : insertLoop step acc l with
  | ok m => exact Or.inl ⟨m, rfl⟩
  | error err => exact Or.inr ⟨err, rfl⟩

theorem IsBinding.splitN {e name text : Bytes} (h : IsBinding e name text) :
    SplitN e = [name, text] := by
  rw [h.1]
  exact SplitN_append name text h.2

theorem IsBinding.unique {e n t n' t' : Bytes} (h : IsBinding e n t) (h' : IsBinding e n' t') :
    n = n' ∧ t = t' := by
  have := h.splitN.symm.trans h'.splitN
  simpa using this

theorem kvStep_ok_iff (e k : Bytes) (v : Value) :
    kvStep e = .ok (some (k, v)) ↔
      ∃ text, IsBinding e k text ∧ k ≠ [] ∧ text ≠ [] ∧ v = Value.str text := by
  unfold kvStep
  rcases SplitN_cases e with ⟨h, hn⟩ | ⟨a, b, h, hb⟩
  · rw [h]
    simp only [reduceCtorEq, false_iff, not_exists, not_and]
    intro text hbind
    exact absurd (by rw [hbind.1]; simp) hn
  · rw [h]
    have hbind : IsBinding e a b := hb
    by_cases ha : a = []
    · subst ha
      simp only [List.length_nil, beq_self_eq_true, if_true, reduceCtorEq, false_iff,
        not_exists, not_and]
      intro text hb2 hk
      exact absurd (hbind.unique hb2).1.symm hk
    · by_cases hbe : b = []
      · subst hbe
        simp only [List.length_nil, beq_self_eq_true, if_true, beq_iff_eq, List.length_eq_zero,
          ha, if_false, reduceCtorEq, false_iff, not_exists, not_and]
        intro text hb2 _ ht
        exact absurd (hbind.unique hb2).2.symm ht
      · simp only [beq_iff_eq, List.length_eq_zero, ha, hbe, if_false, Except.ok.injEq,
          Option.some.injEq, Prod.mk.injEq]
        constructor
        · rintro ⟨rfl, rfl⟩
          exact ⟨b, hbind, ha, hbe, rfl⟩
        · rintro ⟨text, hb2, _, _, rfl⟩
          obtain ⟨h1, h2⟩ := hbind.unique hb2
          exact ⟨h1, by rw [h2]⟩

theorem kvStep_ne_none (e : Bytes) : kvStep e ≠ .ok none := by
  unfold kvStep
  split
  · split
    · simp
    · split <;> simp
  · simp

theorem kvStep_error_iff (e : Bytes) :
    (∃ err, kvStep e = .error err) ↔
      (61 : UInt8) ∉ e ∨ (∃ text, e = 61 :: text) ∨ ∃ name, (61 : UInt8) ∉ name ∧ e = name ++ [61] := by
  unfold kvStep
  rcases SplitN_cases e with ⟨h, hn⟩ | ⟨a, b, h, hb⟩
  · rw [h]
    simp [hn]
  · rw [h]
    have hbind : IsBinding e a b := hb
    have hmem : (61 : UInt8) ∈ e := by rw [hb.1]; simp
    by_cases ha : a = []
    · subst ha
      simp only [List.length_nil, beq_self_eq_true, if_true, Except.error.injEq, exists_eq',
        true_iff]
      exact Or.inr (Or.inl ⟨b, by simpa using hb.1⟩)
    · by_cases hbe : b = []
      · subst hbe
        simp only [List.length_nil, beq_self_eq_true, if_true, beq_iff_eq, List.length_eq_zero,
          ha, if_false, Except.error.injEq, exists_eq', true_iff]
        exact Or.inr (Or.inr ⟨a, hb.2, hb.1⟩)
      · simp only [beq_iff_eq, List.length_eq_zero, ha, hbe, if_false, reduceCtorEq,
          exists_false, false_iff, not_or, not_exists, not_and]
        refine ⟨fun hn => hn hmem, ?_, ?_⟩
        · intro text ht
          have hb2 : IsBinding e [] text := ⟨by simpa using ht, by simp⟩
          exact ha (hbind.unique hb2).1
        · intro name hname ht
          have hb2 : IsBinding e name [] := ⟨ht, hname⟩
          exact hbe (hbind.unique hb2).2

theorem insertLoop_ok_step (step : Step) (acc : GoMap) (l : List Bytes) (m : GoMap)
    (h : insertLoop step acc l = .ok m) (e : Bytes) (he : e ∈ l) : ∃ r, step e = .ok r := by
  cases hs : step e with
  | ok r => exact ⟨r, rfl⟩
  | error err =>
    have := (insertLoop_error_iff step acc l).mpr ⟨e, he, err, hs⟩
    rw [h] at this
    simp at this

theorem hasPrefix_iff (s p : Bytes) : HasPrefix s p = true ↔ ∃ t, s = p ++ t := by
  unfold HasPrefix
  rw [List.isPrefixOf_iff_prefix]
  constructor
  · rintro ⟨t, ht⟩
    exact ⟨t, ht.symm⟩
  · rintro ⟨t, ht⟩
    exact ⟨t, ht.symm⟩

theorem trimPrefix_append (p t : Bytes) : TrimPrefix (p ++ t) p = t := by
  unfold TrimPrefix
  rw [if_pos ((hasPrefix_iff _ _).mpr ⟨t, rfl⟩)]
  simp

theorem bytesOf_underscore : bytesOf "_" = [95] := by decide

theorem envStep_ok_iff {Def Ops Ptr : Type} (w : World Def Ops Ptr) (pfx e key : Bytes)
    (val : Value) :
    envStep w pfx e = .ok (some (key, val)) ↔
      ∃ text, IsBinding e (pfx ++ 95 :: key) text ∧ w.yamlUnmarshal text = .ok val := by
  unfold envStep
  rw [bytesOf_underscore]
  rcases SplitN_cases e with ⟨h, hn⟩ | ⟨a, b, h, hb⟩
  · rw [h]
    simp only [reduceCtorEq, false_iff, not_exists, not_and]
    intro text hbind
    exact absurd (by rw [hbind.1]; simp) hn
  · rw [h]
    have hbind : IsBinding e a b := hb
    by_cases hp : HasPrefix a (pfx ++ [95]) = true
    · obtain ⟨t, ht⟩ := (hasPrefix_iff _ _).mp hp
      subst ht
      simp only [hp, Bool.not_true, Bool.false_eq_true, if_false, trimPrefix_append]
      cases hy : w.yamlUnmarshal b with
      | error err =>
        simp only [reduceCtorEq, false_iff, not_exists, not_and]
        intro text hb2
        obtain ⟨_, h2⟩ := hbind.unique hb2
        rw [← h2, hy]
        simp
      | ok val0 =>
        simp only [Except.ok.injEq, Option.some.injEq, Prod.mk.injEq]
        constructor
        · rintro ⟨rfl, rfl⟩
          exact ⟨b, by simpa using hbind, hy⟩
        · rintro ⟨text, hb2, hv⟩
          obtain ⟨h1, h2⟩ := hbind.unique hb2
          rw [← h2, hy] at hv
          simp only [List.append_assoc, List.singleton_append, List.append_cancel_left_eq,
            List.cons.injEq, true_and] at h1
          exact ⟨h1, by simpa using hv⟩
    · simp only [hp, Bool.not_false, if_true, Except.ok.injEq, reduceCtorEq, false_iff,
        not_exists, not_and, Bool.false_eq_true, not_false_eq_true]
      intro text hb2
      obtain ⟨h1, _⟩ := hbind.unique hb2
      exact absurd ((hasPrefix_iff _ _).mpr ⟨key, by rw [h1]; simp⟩) hp

theorem envStep_error_iff {Def Ops Ptr : Type} (w : World Def Ops Ptr) (pfx e : Bytes) :
    (∃ err, envStep w pfx e = .error err) ↔
      (61 : UInt8) ∉ e ∨
        ∃ key text err, IsBinding e (pfx ++ 95 :: key) text ∧ w.yamlUnmarshal text = .error err := by
  unfold envStep
  rw [bytesOf_underscore]
  rcases SplitN_cases e with ⟨h, hn⟩ | ⟨a, b, h, hb⟩
  · rw [h]
    simp [hn]
  · rw [h]
    have hbind : IsBinding e a b := hb
    have hmem : (61 : UInt8) ∈ e := by rw [hb.1]; simp
    by_cases hp : HasPrefix a (pfx ++ [95]) = true
    · obtain ⟨t, ht⟩ := (hasPrefix_iff _ _).mp hp
      subst ht
      simp only [hp, Bool.not_true, Bool.false_eq_true, if_false]
      cases hy : w.yamlUnmarshal b with
      | error err =>
        simp only [Except.error.injEq, exists_eq', true_iff]
        exact Or.inr ⟨t, b, err, by simpa using hbind, hy⟩
      | ok val0 =>
        simp only [reduceCtorEq, exists_false, false_iff, not_or, not_not, not_exists, not_and]
        refine ⟨hmem, ?_⟩
        intro key text err hb2
        obtain ⟨_, h2⟩ := hbind.unique hb2
        rw [← h2, hy]
        simp
    · simp only [hp, Bool.not_false, if_true, reduceCtorEq, exists_false, false_iff, not_or,
        not_not, not_exists, not_and, Bool.false_eq_true, not_false_eq_true]
      refine ⟨hmem, ?_⟩
      intro key text err hb2
      obtain ⟨h1, _⟩ := hbind.unique hb2
      exact absurd ((hasPrefix_iff _ _).mpr ⟨key, by rw [h1]; simp⟩) hp

theorem mergeLoop_ok (f : Bytes → Except GoError GoMap) (acc : GoMap) (l : List Bytes)
    (ms : List GoMap) (h : List.Forall₂ (fun x m => f x = .ok m) l ms) :
    mergeLoop f acc l = .ok (mergeMap acc ms) := by
  induction h generalizing acc with
  | nil => rfl
  | cons hx _ ih =>
    unfold mergeLoop
    rw [hx]
    dsimp only
    rw [ih]
    rfl

theorem mergeLoop_first_error (f : Bytes → Except GoError GoMap) (acc : GoMap)
    (pre : List Bytes) (ms : List GoMap) (x : Bytes) (post : List Bytes) (err : GoError)
    (h : List.Forall₂ (fun x m => f x = .ok m) pre ms) (hx : f x = .error err) :
    mergeLoop f acc (pre ++ x :: post) = .error err := by
  induction h generalizing acc with
  | nil =>
    simp only [List.nil_append]
    unfold mergeLoop
    rw [hx]
  | cons hy _ ih =>
    simp only [List.cons_append]
    unfold mergeLoop
    rw [hy]
    exact ih _

theorem lookup_mergeMap_empty (ms : List GoMap) (k : Bytes) :
    (mergeMap ∅ ms).lookup k = ms.reverse.findSome? (fun m => m.lookup k) := by
  rw [lookup_mergeMap, List.reverse_cons, List.findSome?_append]
  cases List.findSome? (fun m => AList.lookup k m) ms.reverse <;> simp [List.findSome?]

theorem loadVarFile_binding {Def Ops Ptr : Type} (w : World Def Ops Ptr) (name path : Bytes)
    (hname : (61 : UInt8) ∉ name) (hne : name ≠ []) (hpe : path ≠ []) :
    loadVarFile w (name ++ 61 :: path) =
      match loadFile w path with
      | .error err =>
        .error (bytesOf "Reading variable from file '" ++ path ++ bytesOf "': " ++ err)
      | .ok b => .ok (AList.singleton name (Value.str b)) := by
  unfold loadVarFile
  rw [SplitN_append name path hname]
  simp [hne, hpe]

theorem joinNewline_cons_append (x y : Bytes) (as : List Bytes) :
    joinNewline ((x ++ 10 :: y) :: as) = x ++ 10 :: joinNewline (y :: as) := by
  cases as with
  | nil => rfl
  | cons b rest => simp [joinNewline]

theorem appendYmlByte_eq_foldl (s : Bytes) (as : List Bytes) :
    appendYmlByte s as =
      as.foldl (fun result a => (if result.length > 0 then result ++ [10] else result) ++ a) s := by
  unfold appendYmlByte
  cases s <;> rfl

theorem appendYmlByte_cons (s a : Bytes) (as : List Bytes) :
    appendYmlByte s (a :: as) = appendYmlByte (appendYmlByte s [a]) as := by
  simp only [appendYmlByte_eq_foldl, List.foldl_cons, List.foldl_nil]

theorem appendYmlByte_single (s a : Bytes) :
    appendYmlByte s [a] = if s = [] then a else s ++ 10 :: a := by
  rw [appendYmlByte_eq_foldl]
  cases s with
  | nil => simp
  | cons x xs => simp

theorem appendYmlByte_join (s : Bytes) (as : List Bytes) (h : ∀ a ∈ as, a ≠ []) :
    appendYmlByte s as = joinNewline ((if s = [] then [] else [s]) ++ as) := by
  induction as generalizing s with
  | nil =>
    rw [appendYmlByte_eq_foldl]
    by_cases hs : s = []
    · simp [hs, joinNewline]
    · simp [hs, joinNewline]
  | cons a as ih =>
    have ha : a ≠ [] := h a (List.mem_cons_self _ _)
    rw [appendYmlByte_cons, ih _ (fun x hx => h x (List.mem_cons_of_mem _ hx)),
      appendYmlByte_single]
    by_cases hs : s = []
    · simp [hs, ha]
    · simp only [hs, if_false, List.append_eq_nil, reduceCtorEq, and_false, List.singleton_append]
      rw [joinNewline_cons_append]
      rfl

theorem loadFilesLoop_ok {Def Ops Ptr : Type} (w : World Def Ops Ptr) (result : Bytes)
    (paths contents : List Bytes)
    (h : List.Forall₂ (fun f c => loadFile w f = .ok c) paths contents) :
    loadFilesLoop w result paths = .ok (appendYmlByte result contents) := by
  induction h generalizing result with
  | nil =>
    unfold loadFilesLoop
    rw [appendYmlByte_eq_foldl]
    rfl
  | cons hx _ ih =>
    unfold loadFilesLoop
    rw [hx]
    dsimp only
    rw [ih, ← appendYmlByte_cons]

theorem loadOpsLoop_fuel_mono {Def Ops Ptr : Type} (w : World Def Ops Ptr) (data : Bytes)
    (fuel fuel' i : Nat) (opDefs r : List Def) (hle : fuel ≤ fuel')
    (h : loadOpsLoop w data fuel i opDefs = some r) :
    loadOpsLoop w data fuel' i opDefs = some r := by
  induction fuel generalizing fuel' i opDefs with
  | zero => simp [loadOpsLoop] at h
  | succ n ih =>
    obtain ⟨m, rfl⟩ : ∃ m, fuel' = m + 1 := ⟨fuel' - 1, by omega⟩
    unfold loadOpsLoop at h ⊢
    cases hd : w.decode data i with
    | none =>
      rw [hd] at h
      exact h
    | some tmp =>
      rw [hd] at h
      exact ih m (i + 1) (opDefs ++ tmp) (by omega) h

theorem loadOps_fuel_mono {Def Ops Ptr : Type} (w : World Def Ops Ptr) (data : Bytes)
    (fuel fuel' : Nat) (r : Except GoError Ops) (hle : fuel ≤ fuel')
    (h : loadOps w fuel data = some r) : loadOps w fuel' data = some r := by
  unfold loadOps at h ⊢
  cases hl : loadOpsLoop w data fuel 0 [] with
  | none =>
    rw [hl] at h
    cases h
  | some opDefs =>
    rw [hl] at h
    rw [loadOpsLoop_fuel_mono w data fuel fuel' 0 [] opDefs hle hl]
    exact h

/-- A result of `Apply` does not change when the decoding loop is given more
fuel. -/
theorem Apply_fuel_mono {Def Ops Ptr : Type} (w : World Def Ops Ptr) (engine : Engine Ops Ptr)
    (fuel fuel' : Nat) (opts : ApplyOpts) (r : Bytes × Option GoError) (hle : fuel ≤ fuel')
    (h : Apply w engine fuel opts = some r) : Apply w engine fuel' opts = some r := by
  unfold Apply at h ⊢
  by_cases g1 : (opts.YamlContent.length == 0 && opts.YamlPath == []) = true
  · simp only [g1, if_true] at h ⊢
    exact h
  by_cases g2 : (opts.OpsContent.length == 0 && opts.OpsFiles.length == 0) = true
  · simp only [g1, g2, Bool.false_eq_true, if_true, if_false] at h ⊢
    exact h
  simp only [g1, g2, Bool.false_eq_true, if_false] at h ⊢
  cases hY : loadAllType w opts.YamlContent [opts.YamlPath] with
  | error err =>
    simp only [hY] at h ⊢
    exact h
  | ok yamlContent =>
    cases hO : loadAllType w opts.OpsContent opts.OpsFiles with
    | error err =>
      simp only [hY, hO] at h ⊢
      exact h
    | ok opsContent =>
      cases hL : loadOps w fuel opsContent with
      | none =>
        simp only [hY, hO, hL] at h
        cases h
      | some rops =>
        have hL' := loadOps_fuel_mono w opsContent fuel fuel' rops hle hL
        simp only [hY, hO, hL] at h
        simp only [hY, hO, hL']
        exact h

theorem guard_yaml_iff (opts : ApplyOpts) :
    (opts.YamlContent.length == 0 && opts.YamlPath == []) = true ↔
      opts.YamlContent = [] ∧ opts.YamlPath = [] := by
  simp [List.length_eq_zero]

theorem guard_ops_iff (opts : ApplyOpts) :
    (opts.OpsContent.length == 0 && opts.OpsFiles.length == 0) = true ↔
      opts.OpsContent = [] ∧ opts.OpsFiles = [] := by
  simp [List.length_eq_zero]

theorem Apply_no_yaml {Def Ops Ptr : Type} (w : World Def Ops Ptr) (engine : Engine Ops Ptr)
    (fuel : Nat) (opts : ApplyOpts) (h : opts.YamlContent = [] ∧ opts.YamlPath = []) :
    Apply w engine fuel opts = some ([], some (bytesOf "A yaml template must be given.")) := by
  unfold Apply
  simp only [(guard_yaml_iff opts).mpr h, if_true]

theorem Apply_no_ops {Def Ops Ptr : Type} (w : World Def Ops Ptr) (engine : Engine Ops Ptr)
    (fuel : Nat) (opts : ApplyOpts) (h1 : ¬ (opts.YamlContent = [] ∧ opts.YamlPath = []))
    (h2 : opts.OpsContent = [] ∧ opts.OpsFiles = []) :
    Apply w engine fuel opts = some ([], some (bytesOf "An ops-file must be given.")) := by
  unfold Apply
  have g1 : ¬ (opts.YamlContent.length == 0 && opts.YamlPath == []) = true :=
    fun h => h1 ((guard_yaml_iff opts).mp h)
  simp only [g1, (guard_ops_iff opts).mpr h2, Bool.false_eq_true, if_true, if_false]

/-- The outcomes of `Apply`: no result, a failure before the evaluation that
does not depend on the engine, or the outcome of the evaluation on arguments
that the loading steps determine. -/
theorem Apply_cases {Def Ops Ptr : Type} (w : World Def Ops Ptr) (fuel : Nat) (opts : ApplyOpts) :
    (¬ LoadsSucceed w fuel opts ∧ ∀ engine : Engine Ops Ptr, Apply w engine fuel opts = none) ∨
    (∃ err, (¬ LoadsSucceed w fuel opts ∨
        (opts.OpPath ≠ [] ∧ w.NewPointerFromString opts.OpPath = .error err)) ∧
      ∀ engine : Engine Ops Ptr, Apply w engine fuel opts = some ([], some err)) ∨
    (∃ yamlContent opsContent ops varsEnv varsFiles varsFile post,
      LoadsSucceed w fuel opts ∧
      loadAllType w opts.YamlContent [opts.YamlPath] = .ok yamlContent ∧
      loadAllType w opts.OpsContent opts.OpsFiles = .ok opsContent ∧
      loadOps w fuel opsContent = some (.ok ops) ∧
      loadVarsEnvs w opts.VarsEnv = .ok varsEnv ∧
      loadVarsFiles w opts.VarFiles = .ok varsFiles ∧
      loadVarFiles w opts.VarFiles = .ok varsFile ∧
      (opts.OpPath = [] → post = none) ∧
      (opts.OpPath ≠ [] →
        ∃ ptr, w.NewPointerFromString opts.OpPath = .ok ptr ∧ post = some ⟨ptr⟩) ∧
      HandsToEvaluator w fuel opts (NewTemplate yamlContent)
        (mergeMap (varsKVOf opts) [varsEnv, varsFiles, varsFile]) ops
        { ExpectAllKeys := opts.VarErrors, ExpectAllVarsUsed := opts.VarErrorsUnused,
          PostVarSubstitutionOp := post, UnescapedMultiline := opts.OpPath != [] }) := by
  by_cases h1 : opts.YamlContent = [] ∧ opts.YamlPath = []
  · exact Or.inr (Or.inl ⟨_, Or.inl (fun hl => hl.1 h1), fun engine => Apply_no_yaml w engine fuel opts h1⟩)
  by_cases h2 : opts.OpsContent = [] ∧ opts.OpsFiles = []
  · exact Or.inr (Or.inl ⟨_, Or.inl (fun hl => hl.2.1 h2),
      fun engine => Apply_no_ops w engine fuel opts h1 h2⟩)
  have g1 : ¬ (opts.YamlContent.length == 0 && opts.YamlPath == []) = true :=
    fun h => h1 ((guard_yaml_iff opts).mp h)
  have g2 : ¬ (opts.OpsContent.length == 0 && opts.OpsFiles.length == 0) = true :=
    fun h => h2 ((guard_ops_iff opts).mp h)
  cases hY : loadAllType w opts.YamlContent [opts.YamlPath] with
  | error err =>
    refine Or.inr (Or.inl ⟨err, Or.inl ?_, fun engine => ?_⟩)
    · rintro ⟨_, _, ⟨y, hy⟩, _⟩
      rw [hY] at hy
      cases hy
    · unfold Apply
      simp only [g1, g2, Bool.false_eq_true, if_false, hY]
  | ok yamlContent =>
  cases hO : loadAllType w opts.OpsContent opts.OpsFiles with
  | error err =>
    refine Or.inr (Or.inl ⟨err, Or.inl ?_, fun engine => ?_⟩)
    · rintro ⟨_, _, _, ⟨oc, ops, hy, _⟩, _⟩
      rw [hO] at hy
      cases hy
    · unfold Apply
      simp only [g1, g2, Bool.false_eq_true, if_false, hY, hO]
  | ok opsContent =>
  cases hL : loadOps w fuel opsContent with
  | none =>
    refine Or.inl ⟨?_, fun engine => ?_⟩
    · rintro ⟨_, _, _, ⟨oc, ops, hy, hl⟩, _⟩
      rw [hO] at hy
      cases hy
      rw [hL] at hl
      cases hl
    unfold Apply
    simp only [g1, g2, Bool.false_eq_true, if_false, hY, hO, hL]
  | some rops =>
  cases rops with
  | error err =>
    refine Or.inr (Or.inl ⟨err, Or.inl ?_, fun engine => ?_⟩)
    · rintro ⟨_, _, _, ⟨oc, ops, hy, hl⟩, _⟩
      rw [hO] at hy
      cases hy
      rw [hL] at hl
      cases hl
    · unfold Apply
      simp only [g1, g2, Bool.false_eq_true, if_false, hY, hO, hL]
  | ok ops =>
  cases hE : loadVarsEnvs w opts.VarsEnv with
  | error err =>
    refine Or.inr (Or.inl ⟨err, Or.inl ?_, fun engine => ?_⟩)
    · rintro ⟨_, _, _, _, ⟨m, hm⟩, _⟩
      rw [hE] at hm
      cases hm
    · unfold Apply
      simp only [g1, g2, Bool.false_eq_true, if_false, hY, hO, hL, hE]
  | ok varsEnv =>
  cases hV : loadVarsFiles w opts.VarFiles with
  | error err =>
    refine Or.inr (Or.inl ⟨err, Or.inl ?_, fun engine => ?_⟩)
    · rintro ⟨_, _, _, _, _, ⟨m, hm⟩, _⟩
      rw [hV] at hm
      cases hm
    · unfold Apply
      simp only [g1, g2, Bool.false_eq_true, if_false, hY, hO, hL, hE, hV]
  | ok varsFiles =>
  cases hF : loadVarFiles w opts.VarFiles with
  | error err =>
    refine Or.inr (Or.inl ⟨err, Or.inl ?_, fun engine => ?_⟩)
    · rintro ⟨_, _, _, _, _, _, ⟨m, hm⟩⟩
      rw [hF] at hm
      cases hm
    · unfold Apply
      simp only [g1, g2, Bool.false_eq_true, if_false, hY, hO, hL, hE, hV, hF]
  | ok varsFile =>
  have hloads : LoadsSucceed w fuel opts :=
    ⟨h1, h2, ⟨_, hY⟩, ⟨_, _, hO, hL⟩, ⟨_, hE⟩, ⟨_, hV⟩, ⟨_, hF⟩⟩
  by_cases hp : opts.OpPath = []
  · refine Or.inr (Or.inr ⟨yamlContent, opsContent, ops, varsEnv, varsFiles, varsFile, none,
      hloads, rfl, rfl, hL, rfl, rfl, rfl, fun _ => rfl, fun h => absurd hp h, fun engine => ?_⟩)
    unfold Apply
    simp only [g1, g2, Bool.false_eq_true, if_false, hY, hO, hL, hE, hV, hF, hp, bne_self_eq_false,
      Bool.false_eq_true, varsKVOf]
  · have gp : (opts.OpPath != []) = true := by simpa using hp
    cases hP : w.NewPointerFromString opts.OpPath with
    | error err =>
      refine Or.inr (Or.inl ⟨err, Or.inr ⟨hp, rfl⟩, fun engine => ?_⟩)
      unfold Apply
      simp only [g1, g2, Bool.false_eq_true, if_false, hY, hO, hL, hE, hV, hF, gp, if_true, hP]
    | ok ptr =>
      refine Or.inr (Or.inr ⟨yamlContent, opsContent, ops, varsEnv, varsFiles, varsFile,
        some ⟨ptr⟩, hloads, rfl, rfl, hL, rfl, rfl, rfl, fun h => absurd h hp,
        fun _ => ⟨ptr, rfl, rfl⟩, fun engine => ?_⟩)
      unfold Apply
      simp only [g1, g2, Bool.false_eq_true, if_false, hY, hO, hL, hE, hV, hF, gp, if_true, hP, varsKVOf]

theorem applyEvaluate_ok {Ops Ptr : Type} (engine : Engine Ops Ptr) (tpl : Template)
    (vars : StaticVariables) (ops : Ops) (evalOpts : EvaluateOpts Ptr) (b : Bytes)
    (h : engine tpl vars ops evalOpts = .ok b) :
    applyEvaluate engine tpl vars ops evalOpts = (b, none) := by
  unfold applyEvaluate Evaluate
  rw [h]

theorem applyEvaluate_error {Ops Ptr : Type} (engine : Engine Ops Ptr) (tpl : Template)
    (vars : StaticVariables) (ops : Ops) (evalOpts : EvaluateOpts Ptr) (err : GoError)
    (h : engine tpl vars ops evalOpts = .error err) :
    applyEvaluate engine tpl vars ops evalOpts = ([], some (bytesOf "Evaluating: " ++ err)) := by
  unfold applyEvaluate Evaluate
  rw [h]

theorem applyEvaluate_fst_of_error {Ops Ptr : Type} (engine : Engine Ops Ptr) (tpl : Template)
    (vars : StaticVariables) (ops : Ops) (evalOpts : EvaluateOpts Ptr) (b : Bytes) (err : GoError)
    (h : applyEvaluate engine tpl vars ops evalOpts = (b, some err)) : b = [] := by
  cases he : engine tpl vars ops evalOpts with
  | ok b' =>
    rw [applyEvaluate_ok engine tpl vars ops evalOpts b' he] at h
    simp at h
  | error e =>
    rw [applyEvaluate_error engine tpl vars ops evalOpts e he] at h
    simp only [Prod.mk.injEq] at h
    exact h.1.symm

/-- The arguments that `Apply` hands to the evaluator are the ones computed by
its loading steps. -/
theorem handsToEvaluator_inv {Def Ops Ptr : Type} (w : World Def Ops Ptr) (fuel : Nat)
    (opts : ApplyOpts) (tpl : Template) (vars : StaticVariables) (ops : Ops)
    (evalOpts : EvaluateOpts Ptr) (h : HandsToEvaluator w fuel opts tpl vars ops evalOpts) :
    ∃ yamlContent opsContent varsEnv varsFiles varsFile post,
      LoadsSucceed w fuel opts ∧
      loadAllType w opts.YamlContent [opts.YamlPath] = .ok yamlContent ∧
      loadAllType w opts.OpsContent opts.OpsFiles = .ok opsContent ∧
      loadOps w fuel opsContent = some (.ok ops) ∧
      loadVarsEnvs w opts.VarsEnv = .ok varsEnv ∧
      loadVarsFiles w opts.VarFiles = .ok varsFiles ∧
      loadVarFiles w opts.VarFiles = .ok varsFile ∧
      (opts.OpPath = [] → post = none) ∧
      (opts.OpPath ≠ [] →
        ∃ ptr, w.NewPointerFromString opts.OpPath = .ok ptr ∧ post = some ⟨ptr⟩) ∧
      tpl = NewTemplate yamlContent ∧
      vars = mergeMap (varsKVOf opts) [varsEnv, varsFiles, varsFile] ∧
      evalOpts = { ExpectAllKeys := opts.VarErrors, ExpectAllVarsUsed := opts.VarErrorsUnused,
                   PostVarSubstitutionOp := post, UnescapedMultiline := opts.OpPath != [] } := by
  classical
  rcases Apply_cases w fuel opts with ⟨_, hnone⟩ | ⟨err, _, herr⟩ |
    ⟨yamlContent, opsContent, ops', varsEnv, varsFiles, varsFile, post, hloads, hY, hO, hL, hE,
      hV, hF, hp1, hp2, hH⟩
  · have := h (fun _ _ _ _ => .ok [])
    rw [hnone] at this
    cases this
  · have := h (fun _ _ _ _ => .ok [1])
    rw [herr, applyEvaluate_ok _ _ _ _ _ [1] rfl] at this
    simp at this
  · let engine : Engine Ops Ptr := fun a b c d =>
      if a = tpl ∧ b = vars ∧ c = ops ∧ d = evalOpts then .ok [1] else .ok []
    have e1 := h engine
    have e2 := hH engine
    rw [applyEvaluate_ok engine tpl vars ops evalOpts [1] (by simp [engine])] at e1
    rw [e1] at e2
    by_cases hc : NewTemplate yamlContent = tpl ∧
        mergeMap (varsKVOf opts) [varsEnv, varsFiles, varsFile] = vars ∧ ops' = ops ∧
        ({ ExpectAllKeys := opts.VarErrors, ExpectAllVarsUsed := opts.VarErrorsUnused,
           PostVarSubstitutionOp := post, UnescapedMultiline := opts.OpPath != [] } :
          EvaluateOpts Ptr) = evalOpts
    · obtain ⟨c1, c2, c3, c4⟩ := hc
      subst c3
      exact ⟨yamlContent, opsContent, varsEnv, varsFiles, varsFile, post, hloads, hY, hO, hL, hE,
        hV, hF, hp1, hp2, c1.symm, c2.symm, c4.symm⟩
    · rw [applyEvaluate_ok engine _ _ _ _ [] (by simp only [engine, if_neg hc])] at e2
      simp at e2

/-! ## Claims -/

/-- C6: `mergeMap` is a left-to-right, last-one-wins fold. The keys of
`mergeMap s as` are the keys of `s` and of the maps of `as`; the value of a key
is the one of the last map of `s, as[0], as[1], ...` that has the key; with no
extra maps the result is `s`. -/
theorem mergeMap_last_one_wins (s : GoMap) (as : List GoMap) :
    (∀ k, k ∈ mergeMap s as ↔ ∃ m ∈ s :: as, k ∈ m) ∧
    (∀ k, (mergeMap s as).lookup k = (s :: as).reverse.findSome? (fun m => m.lookup k)) ∧
    mergeMap s [] = s :=
  ⟨mem_mergeMap s as, lookup_mergeMap s as, mergeMap_nil s⟩

/-- C5: `convertVarsKV` cuts every entry at its first `=`. It fails exactly
when some entry has no `=`, an empty name or an empty value. Otherwise a name
is bound in the result exactly when some entry reads `name=text`, and it is
bound to the raw text (a string) of the last such entry. -/
theorem convertVarsKV_spec (kvRawSlice : List Bytes) :
    ((∃ err, convertVarsKV kvRawSlice = .error err) ↔
      ∃ e ∈ kvRawSlice, (61 : UInt8) ∉ e ∨ (∃ text, e = 61 :: text) ∨
        ∃ name, (61 : UInt8) ∉ name ∧ e = name ++ [61]) ∧
    (∀ m, convertVarsKV kvRawSlice = .ok m → ∀ name v,
      m.lookup name = some v ↔
        ∃ pre text post, kvRawSlice = pre ++ (name ++ 61 :: text) :: post ∧
          (61 : UInt8) ∉ name ∧ v = Value.str text ∧
          ∀ e' ∈ post, ∀ text', e' ≠ name ++ 61 :: text') := by
  unfold convertVarsKV
  rw [convertVarsKVLoop_eq]
  constructor
  · rw [insertLoop_error_iff]
    simp only [kvStep_error_iff]
  · intro m hm name v
    rw [insertLoop_lookup kvStep ∅ kvRawSlice m hm name v]
    simp only [AList.lookup_empty, reduceCtorEq, false_and, or_false]
    constructor
    · rintro ⟨pre, e, post, hl, hs, hpost⟩
      obtain ⟨text, hbind, _, _, hv⟩ := (kvStep_ok_iff e name v).mp hs
      refine ⟨pre, text, post, by rw [hl, hbind.1], hbind.2, hv, ?_⟩
      intro e' he' text' heq
      have hmem : e' ∈ kvRawSlice := by
        rw [hl]
        exact List.mem_append_right _ (List.mem_cons_of_mem _ he')
      obtain ⟨r, hr⟩ := insertLoop_ok_step kvStep ∅ kvRawSlice m hm e' hmem
      cases r with
      | none => exact kvStep_ne_none e' hr
      | some kv =>
        obtain ⟨k', v'⟩ := kv
        obtain ⟨t', hb', _, _, _⟩ := (kvStep_ok_iff e' k' v').mp hr
        have hb2 : IsBinding e' name text' := ⟨heq, hbind.2⟩
        obtain ⟨hk, _⟩ := hb'.unique hb2
        subst hk
        exact hpost e' he' v' hr
    · rintro ⟨pre, text, post, hl, hname, hv, hpost⟩
      have hmem : name ++ 61 :: text ∈ kvRawSlice := by
        rw [hl]
        exact List.mem_append_right _ (List.mem_cons_self _ _)
      obtain ⟨r, hr⟩ := insertLoop_ok_step kvStep ∅ kvRawSlice m hm _ hmem
      have hb : IsBinding (name ++ 61 :: text) name text := ⟨rfl, hname⟩
      refine ⟨pre, name ++ 61 :: text, post, hl, ?_, ?_⟩
      · cases r with
        | none => exact absurd hr (kvStep_ne_none _)
        | some kv =>
          obtain ⟨k', v'⟩ := kv
          obtain ⟨t', hb', hk', ht', _⟩ := (kvStep_ok_iff _ k' v').mp hr
          obtain ⟨h1, h2⟩ := hb'.unique hb
          subst h1 h2
          exact (kvStep_ok_iff _ _ _).mpr ⟨t', hb, hk', ht', hv⟩
      · intro e' he' v' hs
        obtain ⟨t', hb', _⟩ := (kvStep_ok_iff e' name v').mp hs
        exact hpost e' he' t' hb'.1

/-- C5, at `a=b=c`, `x=1`, `a=2`: the result binds `a` to the text `2`. -/
theorem convertVarsKV_spec_witness :
    convertVarsKV [bytesOf "a=b=c", bytesOf "x=1", bytesOf "a=2"] =
        .ok ((((∅ : GoMap).insert (bytesOf "a") (Value.str (bytesOf "b=c"))).insert
          (bytesOf "x") (Value.str (bytesOf "1"))).insert (bytesOf "a") (Value.str (bytesOf "2"))) ∧
      ((((∅ : GoMap).insert (bytesOf "a") (Value.str (bytesOf "b=c"))).insert
          (bytesOf "x") (Value.str (bytesOf "1"))).insert (bytesOf "a")
            (Value.str (bytesOf "2"))).lookup (bytesOf "a") = some (Value.str (bytesOf "2")) :=
  ⟨rfl, ((convertVarsKV_spec [bytesOf "a=b=c", bytesOf "x=1", bytesOf "a=2"]).2 _ rfl
    (bytesOf "a") (Value.str (bytesOf "2"))).mpr
    ⟨[bytesOf "a=b=c", bytesOf "x=1"], bytesOf "2", [], rfl, by decide, rfl, by simp⟩⟩

/-- C3 as stated fails: with prefix `MY`, the entry `MYvar=1` has a name that
starts with the prefix, and `loadVarsEnv` returns the empty map. -/
theorem loadVarsEnv_needs_underscore :
    bytesOf "MYvar=1" ∈ bareWorld.environ ∧
      IsBinding (bytesOf "MYvar=1") (bytesOf "MY" ++ bytesOf "var") (bytesOf "1") ∧
      loadVarsEnv bareWorld (bytesOf "MY") = .ok ∅ :=
  ⟨by decide, ⟨by decide, by decide⟩, rfl⟩

/-- C3, amended: `loadVarsEnv pfx` keeps the entries whose name starts with
`pfx` followed by `_`, and strips `pfx_` from the name. When every entry of the
environment has a `=` and the text of every entry named `pfx_key` decodes as
YAML, the result has a value for `key` exactly when some entry reads
`pfx_key=text`, and the value is the decoding of the text of the last such
entry. -/
theorem loadVarsEnv_spec {Def Ops Ptr : Type} (w : World Def Ops Ptr) (pfx : Bytes)
    (hwf : ∀ e ∈ w.environ, (61 : UInt8) ∈ e)
    (hdec : ∀ e ∈ w.environ, ∀ key text, IsBinding e (pfx ++ 95 :: key) text →
      ∃ val, w.yamlUnmarshal text = .ok val) :
    ∃ m, loadVarsEnv w pfx = .ok m ∧ ∀ key val,
      m.lookup key = some val ↔
        ∃ pre text post, w.environ = pre ++ (pfx ++ 95 :: key ++ 61 :: text) :: post ∧
          (61 : UInt8) ∉ pfx ++ 95 :: key ∧ w.yamlUnmarshal text = .ok val ∧
          ∀ e' ∈ post, ∀ text', e' ≠ pfx ++ 95 :: key ++ 61 :: text' := by
  unfold loadVarsEnv
  rw [loadVarsEnvLoop_eq]
  have hok : ∀ e ∈ w.environ, ¬ ∃ err, envStep w pfx e = .error err := by
    intro e he
    rw [envStep_error_iff]
    rintro (hn | ⟨key, text, err, hb, hy⟩)
    · exact hn (hwf e he)
    · obtain ⟨val, hval⟩ := hdec e he key text hb
      rw [hval] at hy
      cases hy
  rcases insertLoop_total (envStep w pfx) ∅ w.environ with ⟨m, hm⟩ | herr
  swap
  · obtain ⟨e, he, herr⟩ := (insertLoop_error_iff _ _ _).mp herr
    exact absurd herr (hok e he)
  refine ⟨m, hm, ?_⟩
  intro key val
  rw [insertLoop_lookup (envStep w pfx) ∅ w.environ m hm key val]
  simp only [AList.lookup_empty, reduceCtorEq, false_and, or_false]
  constructor
  · rintro ⟨pre, e, post, hl, hs, hpost⟩
    obtain ⟨text, hbind, hv⟩ := (envStep_ok_iff w pfx e key val).mp hs
    refine ⟨pre, text, post, by rw [hl, hbind.1], hbind.2, hv, ?_⟩
    intro e' he' text' heq
    have hmem : e' ∈ w.environ := by
      rw [hl]
      exact List.mem_append_right _ (List.mem_cons_of_mem _ he')
    have hb2 : IsBinding e' (pfx ++ 95 :: key) text' := ⟨heq, hbind.2⟩
    obtain ⟨val', hval'⟩ := hdec e' hmem key text' hb2
    exact hpost e' he' val' ((envStep_ok_iff w pfx e' key val').mpr ⟨text', hb2, hval'⟩)
  · rintro ⟨pre, text, post, hl, hname, hv, hpost⟩
    have hb : IsBinding (pfx ++ 95 :: key ++ 61 :: text) (pfx ++ 95 :: key) text :=
      ⟨rfl, hname⟩
    refine ⟨pre, _, post, hl, (envStep_ok_iff w pfx _ key val).mpr ⟨text, hb, hv⟩, ?_⟩
    intro e' he' v' hs
    obtain ⟨t', hb', _⟩ := (envStep_ok_iff w pfx e' key v').mp hs
    exact hpost e' he' t' hb'.1

/-- C3, amended, in `demoWorld` with prefix `MY`: the entry `MY_var=value`
gives the key `var`, bound to the decoding of `value`. -/
theorem loadVarsEnv_spec_witness :
    (∀ e ∈ demoWorld.environ, (61 : UInt8) ∈ e) ∧
      ∃ m, loadVarsEnv demoWorld (bytesOf "MY") = .ok m ∧
        m.lookup (bytesOf "var") = some (Value.str (bytesOf "value")) := by
  have hdec : ∀ e ∈ demoWorld.environ, ∀ key text,
      IsBinding e (bytesOf "MY" ++ 95 :: key) text →
        ∃ val, demoWorld.yamlUnmarshal text = .ok val := by
    intro e he key text hb
    have hs := hb.splitN
    simp only [demoWorld, List.mem_cons, List.mem_singleton, List.not_mem_nil, or_false] at he
    rcases he with rfl | rfl | rfl
    · rw [show SplitN (bytesOf "HOME=/root") = [bytesOf "HOME", bytesOf "/root"] by decide] at hs
      simp only [List.cons.injEq, and_true] at hs
      have h1 : List.head? (bytesOf "MY" ++ 95 :: key) = some 77 := rfl
      have h2 := congrArg List.head? hs.1
      rw [h1] at h2
      exact absurd h2 (by decide)
    · rw [show SplitN (bytesOf "MY_var=value") = [bytesOf "MY_var", bytesOf "value"]
        by decide] at hs
      simp only [List.cons.injEq, and_true] at hs
      rw [← hs.2]
      exact ⟨_, rfl⟩
    · rw [show SplitN (bytesOf "MY_k=envval") = [bytesOf "MY_k", bytesOf "envval"]
        by decide] at hs
      simp only [List.cons.injEq, and_true] at hs
      rw [← hs.2]
      exact ⟨_, rfl⟩
  obtain ⟨m, hm, hchar⟩ := loadVarsEnv_spec demoWorld (bytesOf "MY") (by decide) hdec
  refine ⟨by decide, m, hm, (hchar _ _).mpr
    ⟨[bytesOf "HOME=/root"], bytesOf "value", [bytesOf "MY_k=envval"], rfl, by decide, rfl, ?_⟩⟩
  intro e' he' text' h
  simp only [List.mem_singleton] at he'
  subst he'
  have h1 : List.take 4 (bytesOf "MY" ++ 95 :: bytesOf "var" ++ 61 :: text') = [77, 89, 95, 118] :=
    rfl
  have h2 := congrArg (List.take 4) h
  rw [h1] at h2
  exact absurd h2 (by decide)

/-- C7: `loadVarFile` turns `name=path` (cut at the first `=`, both parts
non-empty) whose file loads into the one-entry map from `name` to the file
contents as a string. It fails when the non-empty argument has no `=`, an
empty name, an empty path, or a file that does not load; the empty argument
gives the empty map. `loadVarFiles` merges the maps of its bindings in
argument order, the last binding of a name giving its value, and returns the
error of the first binding that fails. -/
theorem loadVarFile_spec {Def Ops Ptr : Type} (w : World Def Ops Ptr) :
    (∀ name path content, (61 : UInt8) ∉ name → name ≠ [] → path ≠ [] →
      loadFile w path = .ok content →
      loadVarFile w (name ++ 61 :: path) = .ok (AList.singleton name (Value.str content))) ∧
    (∀ varFile, varFile ≠ [] → (61 : UInt8) ∉ varFile → ∃ err, loadVarFile w varFile = .error err) ∧
    (∀ path, ∃ err, loadVarFile w (61 :: path) = .error err) ∧
    (∀ name, (61 : UInt8) ∉ name → ∃ err, loadVarFile w (name ++ [61]) = .error err) ∧
    (∀ name path err, (61 : UInt8) ∉ name → name ≠ [] → path ≠ [] →
      loadFile w path = .error err → ∃ err', loadVarFile w (name ++ 61 :: path) = .error err') ∧
    loadVarFile w [] = .ok ∅ ∧
    (∀ varFiles ms, List.Forall₂ (fun f m => loadVarFile w f = .ok m) varFiles ms →
      loadVarFiles w varFiles = .ok (mergeMap ∅ ms) ∧
        ∀ k, (mergeMap ∅ ms).lookup k = ms.reverse.findSome? (fun m => m.lookup k)) ∧
    (∀ pre ms f post err, List.Forall₂ (fun f m => loadVarFile w f = .ok m) pre ms →
      loadVarFile w f = .error err → loadVarFiles w (pre ++ f :: post) = .error err) := by
  refine ⟨?_, ?_, ?_, ?_, ?_, ?_, ?_, ?_⟩
  · intro name path content hname hne hpe hload
    rw [loadVarFile_binding w name path hname hne hpe, hload]
  · intro varFile hne hn
    unfold loadVarFile
    rw [SplitN_of_not_mem varFile hn]
    simp [hne]
  · intro path
    unfold loadVarFile
    rw [show (61 : UInt8) :: path = [] ++ 61 :: path from rfl, SplitN_append [] path (by simp)]
    simp
  · intro name hname
    unfold loadVarFile
    rw [SplitN_append name [] hname]
    by_cases hne : name = []
    · simp [hne]
    · simp [hne]
  · intro name path err hname hne hpe hload
    rw [loadVarFile_binding w name path hname hne hpe, hload]
    exact ⟨_, rfl⟩
  · rfl
  · intro varFiles ms h
    refine ⟨?_, lookup_mergeMap_empty ms⟩
    unfold loadVarFiles
    rw [loadVarFilesLoop_eq]
    exact mergeLoop_ok _ _ _ _ h
  · intro pre ms f post err h hf
    unfold loadVarFiles
    rw [loadVarFilesLoop_eq]
    exact mergeLoop_first_error _ _ _ _ _ _ _ h hf

/-- C7, in `demoWorld`: the binding `k=secret` gives the map from `k` to the
contents of `/cwd/secret`. -/
theorem loadVarFile_spec_witness :
    loadFile demoWorld (bytesOf "secret") = .ok (bytesOf "fileval") ∧
      loadVarFile demoWorld (bytesOf "k" ++ 61 :: bytesOf "secret") =
        .ok (AList.singleton (bytesOf "k") (Value.str (bytesOf "fileval"))) :=
  ⟨rfl, (loadVarFile_spec demoWorld).1 (bytesOf "k") (bytesOf "secret") (bytesOf "fileval")
    (by decide) (by decide) (by decide) rfl⟩

/-- C8 as stated fails: with inline content `x` and no file, `loadAllType`
returns `x` followed by a newline byte, not the single piece `x`. -/
theorem loadAllType_trailing_newline :
    loadAllType demoWorld (bytesOf "x") [] = .ok (bytesOf "x" ++ [10]) ∧
      bytesOf "x" ++ [10] ≠ joinNewline ([bytesOf "x"] ++ []) :=
  ⟨rfl, by decide⟩

/-- C8, amended: `appendYmlByte s as`, for non-empty pieces `as`, is `s` (left
out when empty) and the pieces joined by exactly one newline byte. When the
files load, there is at least one file and every file has non-empty contents,
`loadAllType b files` is `b` (left out when empty) and the contents, in
argument order, joined in the same way; with `b` empty and one file it is that
file's contents; with no file it is `b` followed by one newline byte when `b`
is not empty, and empty otherwise. -/
theorem appendYmlByte_spec {Def Ops Ptr : Type} (w : World Def Ops Ptr) :
    (∀ s as, (∀ a ∈ as, a ≠ []) →
      appendYmlByte s as = joinNewline ((if s = [] then [] else [s]) ++ as)) ∧
    (∀ b files contents, List.Forall₂ (fun f c => loadFile w f = .ok c) files contents →
      contents ≠ [] → (∀ c ∈ contents, c ≠ []) →
      loadAllType w b files = .ok (joinNewline ((if b = [] then [] else [b]) ++ contents))) ∧
    (∀ f c, loadFile w f = .ok c → loadAllType w [] [f] = .ok c) ∧
    (∀ b, loadAllType w b [] = .ok (if b = [] then [] else b ++ [10])) := by
  refine ⟨appendYmlByte_join, ?_, ?_, ?_⟩
  · intro b files contents h hne hall
    unfold loadAllType loadFiles
    rw [loadFilesLoop_ok w [] files contents h]
    dsimp only
    rw [appendYmlByte_join [] contents hall, appendYmlByte_single]
    cases contents with
    | nil => exact absurd rfl hne
    | cons c cs =>
      by_cases hb : b = []
      · simp [hb]
      · simp only [hb, if_false, List.nil_append, List.singleton_append, if_true]
        rfl
  · intro f c hf
    unfold loadAllType loadFiles loadFilesLoop
    rw [hf]
    dsimp only
    unfold loadFilesLoop
    dsimp only
    rw [appendYmlByte_single, appendYmlByte_single]
    simp
  · intro b
    unfold loadAllType loadFiles loadFilesLoop
    dsimp only
    rw [appendYmlByte_single]

/-- C8, amended, in `demoWorld`: inline content `x` with the files `a.yml`
and `b.yml` gives the three pieces separated by single newline bytes. -/
theorem appendYmlByte_spec_witness :
    loadAllType demoWorld (bytesOf "x") [bytesOf "a.yml", bytesOf "b.yml"] =
      .ok (joinNewline ([bytesOf "x"] ++ [bytesOf "a: 1", bytesOf "b: 2"])) :=
  (appendYmlByte_spec demoWorld).2.1 (bytesOf "x") [bytesOf "a.yml", bytesOf "b.yml"]
    [bytesOf "a: 1", bytesOf "b: 2"]
    (List.Forall₂.cons rfl (List.Forall₂.cons rfl List.Forall₂.nil)) (by decide) (by decide)

/-- C10: `Apply` rejects missing inputs before it loads anything. Without
template content and path it returns no bytes and the error "A yaml template
must be given."; otherwise, without ops content and ops files, it returns no
bytes and "An ops-file must be given.". Both hold in every world, for every
engine and with no fuel for the decoding loop: nothing is read. -/
theorem Apply_missing_inputs {Def Ops Ptr : Type} (opts : ApplyOpts) :
    (opts.YamlContent = [] ∧ opts.YamlPath = [] →
      ∀ (w : World Def Ops Ptr) (engine : Engine Ops Ptr) (fuel : Nat),
        Apply w engine fuel opts = some ([], some (bytesOf "A yaml template must be given."))) ∧
    (¬ (opts.YamlContent = [] ∧ opts.YamlPath = []) → opts.OpsContent = [] ∧ opts.OpsFiles = [] →
      ∀ (w : World Def Ops Ptr) (engine : Engine Ops Ptr) (fuel : Nat),
        Apply w engine fuel opts = some ([], some (bytesOf "An ops-file must be given."))) :=
  ⟨fun h w engine fuel => Apply_no_yaml w engine fuel opts h,
    fun h1 h2 w engine fuel => Apply_no_ops w engine fuel opts h1 h2⟩

/-- C10, at a template without operations: the second message, with no fuel. -/
theorem Apply_missing_inputs_witness :
    Apply demoWorld failingEngine 0 { YamlContent := bytesOf "a: 1" } =
      some ([], some (bytesOf "An ops-file must be given.")) :=
  (Apply_missing_inputs { YamlContent := bytesOf "a: 1" }).2 (by decide) (by decide)
    demoWorld failingEngine 0

/-- C4: no partial output on error. Whenever `Apply` returns an error, the
bytes it returns are empty. -/
theorem Apply_error_empty {Def Ops Ptr : Type} (w : World Def Ops Ptr) (engine : Engine Ops Ptr)
    (fuel : Nat) (opts : ApplyOpts) (b : Bytes) (err : GoError)
    (h : Apply w engine fuel opts = some (b, some err)) : b = [] := by
  rcases Apply_cases w fuel opts with ⟨_, hnone⟩ | ⟨e, _, herr⟩ |
    ⟨yamlContent, opsContent, ops, varsEnv, varsFiles, varsFile, post, _, _, _, _, _, _, _, _, _,
      hH⟩
  · rw [hnone] at h
    cases h
  · rw [herr] at h
    simp only [Option.some.injEq, Prod.mk.injEq] at h
    exact h.1.symm
  · rw [hH] at h
    simp only [Option.some.injEq] at h
    exact applyEvaluate_fst_of_error _ _ _ _ _ _ _ h

/-- C4, at an evaluation that fails: the error is returned with no bytes. -/
theorem Apply_error_empty_witness :
    Apply demoWorld failingEngine 2 pathOpts =
        some ([], some (bytesOf "Evaluating: " ++ bytesOf "boom")) ∧
      ([] : Bytes) = [] :=
  ⟨rfl, Apply_error_empty demoWorld failingEngine 2 pathOpts []
    (bytesOf "Evaluating: " ++ bytesOf "boom") rfl⟩

/-- C9: the options `Apply` hands to the evaluator. `ExpectAllKeys` is
`VarErrors` and `ExpectAllVarsUsed` is `VarErrorsUnused`. With an empty
`OpPath` there is no post-substitution operation and `UnescapedMultiline` is
off; with a non-empty `OpPath` the operation is the `FindOp` on the pointer
parsed from `OpPath` and `UnescapedMultiline` is on. When the loading steps
succeed and `OpPath` is empty or parses, the evaluator is called. When
`OpPath` is non-empty and does not parse, `Apply` never succeeds, its result
does not depend on the engine, and it is the parse error once the loading
steps succeed. -/
theorem Apply_evaluate_opts {Def Ops Ptr : Type} (w : World Def Ops Ptr) (fuel : Nat)
    (opts : ApplyOpts) :
    (∀ tpl vars ops (evalOpts : EvaluateOpts Ptr),
      HandsToEvaluator w fuel opts tpl vars ops evalOpts →
        evalOpts.ExpectAllKeys = opts.VarErrors ∧
        evalOpts.ExpectAllVarsUsed = opts.VarErrorsUnused ∧
        (opts.OpPath = [] →
          evalOpts.PostVarSubstitutionOp = none ∧ evalOpts.UnescapedMultiline = false) ∧
        (opts.OpPath ≠ [] → evalOpts.UnescapedMultiline = true ∧
          ∃ ptr, w.NewPointerFromString opts.OpPath = .ok ptr ∧
            evalOpts.PostVarSubstitutionOp = some ⟨ptr⟩)) ∧
    (LoadsSucceed w fuel opts →
      (opts.OpPath = [] ∨ ∃ ptr, w.NewPointerFromString opts.OpPath = .ok ptr) →
      ∃ tpl vars ops evalOpts, HandsToEvaluator w fuel opts tpl vars ops evalOpts) ∧
    (∀ err, opts.OpPath ≠ [] → w.NewPointerFromString opts.OpPath = .error err →
      (∀ (engine : Engine Ops Ptr) b, Apply w engine fuel opts ≠ some (b, none)) ∧
      (∀ engine engine' : Engine Ops Ptr, Apply w engine fuel opts = Apply w engine' fuel opts) ∧
      (LoadsSucceed w fuel opts →
        ∀ engine : Engine Ops Ptr, Apply w engine fuel opts = some ([], some err))) := by
  refine ⟨?_, ?_, ?_⟩
  · intro tpl vars ops evalOpts h
    obtain ⟨yamlContent, opsContent, varsEnv, varsFiles, varsFile, post, _, _, _, _, _, _, _,
      hp1, hp2, _, _, he⟩ := handsToEvaluator_inv w fuel opts tpl vars ops evalOpts h
    subst he
    refine ⟨rfl, rfl, ?_, ?_⟩
    · intro hp
      exact ⟨hp1 hp, by simp [hp]⟩
    · intro hp
      exact ⟨by simpa using hp, hp2 hp⟩
  · intro hloads hparse
    rcases Apply_cases w fuel opts with ⟨hn, _⟩ | ⟨err, hfail, _⟩ |
      ⟨yamlContent, opsContent, ops, varsEnv, varsFiles, varsFile, post, _, _, _, _, _, _, _, _,
        _, hH⟩
    · exact absurd hloads hn
    · rcases hfail with hn | ⟨hp, hperr⟩
      · exact absurd hloads hn
      · rcases hparse with hp' | ⟨ptr, hptr⟩
        · exact absurd hp' hp
        · rw [hptr] at hperr
          cases hperr
    · exact ⟨_, _, _, _, hH⟩
  · intro err hp hperr
    rcases Apply_cases w fuel opts with ⟨hn, hnone⟩ | ⟨e, hfail, herr⟩ |
      ⟨yamlContent, opsContent, ops, varsEnv, varsFiles, varsFile, post, _, _, _, _, _, _, _, _,
        hp2, _⟩
    · refine ⟨fun engine b => ?_, fun engine engine' => ?_, fun hl => absurd hl hn⟩
      · rw [hnone]
        simp
      · rw [hnone, hnone]
    · refine ⟨fun engine b => ?_, fun engine engine' => ?_, fun hl engine => ?_⟩
      · rw [herr]
        simp
      · rw [herr, herr]
      · rcases hfail with hn | ⟨_, hperr'⟩
        · exact absurd hl hn
        · rw [hperr] at hperr'
          simp only [Except.error.injEq] at hperr'
          rw [herr, hperr']
    · obtain ⟨ptr, hptr, _⟩ := hp2 hp
      rw [hptr] at hperr
      cases hperr

/-- C9, in `demoWorld` with the path `/a` and both strictness flags: the
evaluator is called with both flags, literal multi-line rendering and the
`FindOp` on the pointer parsed from `/a`. -/
theorem Apply_evaluate_opts_witness :
    HandsToEvaluator demoWorld 2 pathOpts (NewTemplate (bytesOf "a: 1" ++ [10])) ∅ []
        { ExpectAllKeys := true, ExpectAllVarsUsed := true,
          PostVarSubstitutionOp := some ⟨bytesOf "/a"⟩, UnescapedMultiline := true } ∧
      ∃ ptr, demoWorld.NewPointerFromString pathOpts.OpPath = .ok ptr ∧
        (some ⟨bytesOf "/a"⟩ : Option (FindOp Bytes)) = some ⟨ptr⟩ :=
  ⟨fun _ => rfl,
    (((Apply_evaluate_opts demoWorld 2 pathOpts).1 _ _ _ _ (fun _ => rfl)).2.2.2
      (by decide)).2⟩

/-- C1 as stated fails: in `demoWorld` the environment (prefix `MY`) gives `k`
the value `envval` and the file binding `k=secret` gives it the contents
`fileval` of `/cwd/secret`; the store handed to the evaluator holds `fileval`.
(The code also opens the binding as a YAML file, `/cwd/k=secret`, which holds
`other: 2`.) -/
theorem Apply_env_overridden :
    ∃ varsEnv tpl vars ops evalOpts,
      loadVarsEnvs demoWorld precedenceOpts.VarsEnv = .ok varsEnv ∧
      varsEnv.lookup (bytesOf "k") = some (Value.str (bytesOf "envval")) ∧
      HandsToEvaluator demoWorld 2 precedenceOpts tpl vars ops evalOpts ∧
      vars.lookup (bytesOf "k") = some (Value.str (bytesOf "fileval")) ∧
      vars.lookup (bytesOf "k") ≠ varsEnv.lookup (bytesOf "k") := by
  refine ⟨_, _, _, _, _, rfl, rfl, fun _ => rfl, rfl, ?_⟩
  show (some (Value.str (bytesOf "fileval")) : Option Value) ≠ some (Value.str (bytesOf "envval"))
  intro h
  injection h with h
  injection h with h
  exact absurd h (by decide)

/-- C1, amended: the store handed to the evaluator is built with `mergeMap`
in increasing precedence: inline pairs (`VarsKV`), then the variables of the
environment (`VarsEnv`), then the map given by `loadVarsFiles`, then the
file-content variables (`VarFiles`, `name=path`). For every key the store holds
the value of the last of these four maps that has the key. -/
theorem Apply_store_precedence {Def Ops Ptr : Type} (w : World Def Ops Ptr) (fuel : Nat)
    (opts : ApplyOpts) (tpl : Template) (vars : StaticVariables) (ops : Ops)
    (evalOpts : EvaluateOpts Ptr) (h : HandsToEvaluator w fuel opts tpl vars ops evalOpts) :
    ∃ varsEnv varsFiles varsFile,
      loadVarsEnvs w opts.VarsEnv = .ok varsEnv ∧
      loadVarsFiles w opts.VarFiles = .ok varsFiles ∧
      loadVarFiles w opts.VarFiles = .ok varsFile ∧
      vars = mergeMap (varsKVOf opts) [varsEnv, varsFiles, varsFile] ∧
      ∀ k, vars.lookup k =
        (varsFile.lookup k).or ((varsFiles.lookup k).or
          ((varsEnv.lookup k).or ((varsKVOf opts).lookup k))) := by
  obtain ⟨yamlContent, opsContent, varsEnv, varsFiles, varsFile, post, _, _, _, _, hE, hV, hF,
    _, _, _, hvars, _⟩ := handsToEvaluator_inv w fuel opts tpl vars ops evalOpts h
  refine ⟨varsEnv, varsFiles, varsFile, hE, hV, hF, hvars, fun k => ?_⟩
  rw [hvars, mergeMap_cons, mergeMap_cons, lookup_mergeMap_single, lookup_mergeMap_single,
    lookup_mergeMap_single]

/-- C1, amended, in `demoWorld` with the prefix `MY` and the binding
`k=secret`: the evaluator is reached and its store is the merge of the four
maps in the order of the code. -/
theorem Apply_store_precedence_witness :
    ∃ tpl vars ops evalOpts,
      HandsToEvaluator demoWorld 2 precedenceOpts tpl vars ops evalOpts ∧
      ∃ varsEnv varsFiles varsFile,
        loadVarsEnvs demoWorld precedenceOpts.VarsEnv = .ok varsEnv ∧
        loadVarsFiles demoWorld precedenceOpts.VarFiles = .ok varsFiles ∧
        loadVarFiles demoWorld precedenceOpts.VarFiles = .ok varsFile ∧
        vars = mergeMap (varsKVOf precedenceOpts) [varsEnv, varsFiles, varsFile] ∧
        ∀ k, vars.lookup k =
          (varsFile.lookup k).or ((varsFiles.lookup k).or
            ((varsEnv.lookup k).or ((varsKVOf precedenceOpts).lookup k))) :=
  ⟨_, _, _, _, fun _ => rfl,
    Apply_store_precedence demoWorld 2 precedenceOpts _ _ _ _ (fun _ => rfl)⟩

/-- C2, the code at the failing input: in `demoWorld` the file `vars.yml`
listed in `VarsFiles` defines `x`, every loading step of `Apply` succeeds, and
the store handed to the evaluator has no value for `x`. In every world the
result of `Apply` is the same whatever `VarsFiles` lists. -/
theorem Apply_ignores_VarsFiles :
    (∃ m, loadVarsFiles demoWorld varsFilesOpts.VarsFiles = .ok m ∧
      m.lookup (bytesOf "x") = some (Value.int 1)) ∧
    LoadsSucceed demoWorld 2 varsFilesOpts ∧
    (∃ tpl vars ops evalOpts,
      HandsToEvaluator demoWorld 2 varsFilesOpts tpl vars ops evalOpts ∧
      vars.lookup (bytesOf "x") = none) ∧
    ∀ (Def Ops Ptr : Type) (w : World Def Ops Ptr) (engine : Engine Ops Ptr) (fuel : Nat)
      (opts : ApplyOpts) (files : List Bytes),
      Apply w engine fuel { opts with VarsFiles := files } = Apply w engine fuel opts :=
  ⟨⟨_, rfl, rfl⟩,
    ⟨by decide, by decide, ⟨_, rfl⟩, ⟨_, _, rfl, rfl⟩, ⟨_, rfl⟩, ⟨_, rfl⟩, ⟨_, rfl⟩⟩,
    ⟨_, _, _, _, fun _ => rfl, rfl⟩,
    fun _ _ _ _ _ _ _ _ => rfl⟩

end Yint
